import Mathlib

/-!
Verification development for the SRT subtitle translator
(`translate-srt-v2.py`): a shallow embedding of the SRT format reader
and writer (`SRTParser.parse_srt` / `SRTParser.write_srt`), the batch
translation orchestrator (`GroqTranslator.translate_batch`,
`GroqTranslator.translate_text`) and the manager entry point
(`SRTTranslationManager.translate_file`), together with theorems about
the specified behaviour.

Strings are modelled as `List Char`.  The translation backend is
modelled as an oracle `Nat → Option (List Char)` giving, for each
successive API call, the raw message content returned by
`chat.completions.create` (`none` models an exception or a null
content).  Prompt construction (`create_system_prompt`,
`create_translation_prompt`, `create_batch_prompt`) and the context
string built from previous subtitles only flow into the prompt text
handed to the backend; since the backend is an arbitrary oracle indexed
by call order, these values have no observable effect on the model and
are not reproduced.  `time.sleep` calls are modelled only where a claim
depends on them: `translate_text` returns the list of back-off wait
durations it performs.  `logging` calls are side-effect free and
dropped.
-/

/-- Python `\s` (ASCII part, plus the Latin-1 whitespace code points);
also the character class stripped by Python `str.strip()`. -/
def isWS (c : Char) : Bool :=
  c = ' ' || c = '\t' || c = '\n' || c = '\r' || c = '\x0b' || c = '\x0c' ||
  c = '\x1c' || c = '\x1d' || c = '\x1e' || c = '\x1f' || c = '\x85' || c = '\xa0'

/-- Python `\d` (ASCII digits). -/
def isDig (c : Char) : Bool := '0' ≤ c && c ≤ '9'

/-- Python `str.strip()`: remove leading and trailing whitespace. -/
def pstrip (s : List Char) : List Char :=
  ((s.dropWhile isWS).reverse.dropWhile isWS).reverse

/-- Value of a digit character. -/
def digVal (c : Char) : Nat := c.toNat - 48

/-- Python `int()` on a string of digits. -/
def digitsToNat (ds : List Char) : Nat :=
  ds.foldl (fun a c => 10 * a + digVal c) 0

/-- The decimal digit character for `n < 10`. -/
def digChar (n : Nat) : Char := Char.ofNat (48 + n)

/-- Helper for `natDigits`: fuel-driven base-10 expansion (Python `str`
on a non-negative `int`). -/
def natDigitsGo : Nat → Nat → List Char → List Char
  | 0, _, acc => acc
  | fuel + 1, n, acc =>
    if n < 10 then digChar n :: acc
    else natDigitsGo fuel (n / 10) (digChar (n % 10) :: acc)

/-- Python `str(n)` for a non-negative integer `n`, as a character list. -/
def natDigits (n : Nat) : List Char := natDigitsGo (n + 1) n []

/-- One subtitle block (`@dataclass SubtitleBlock`). -/
structure SubtitleBlock where
  index : Nat
  start_time : List Char
  end_time : List Char
  text : List Char
  translated_text : Option (List Char) := none
deriving DecidableEq, Repr

/-! ## Format Reader (`SRTParser.parse_srt`)

The reader normalises line endings and then scans the content with

  `(?m)^\s*(\d+)\s*\n`
  `(\d{2}:\d{2}:\d{2}[,\.]\d{3})\s*-->\s*`
  `(\d{2}:\d{2}:\d{2}[,\.]\d{3}).*?\n`
  `([\s\S]*?)`
  `(?=\n{2,}\d+\s*\n|\Z)`

via `re.finditer`.  The scanner below implements exactly this pattern's
matching discipline on `List Char`:

* `\s*` / `\d+` runs are maximal (the character class following each
  run is disjoint from the run's class, so regex backtracking can never
  pick a shorter run and still succeed);
* `\s*\n` consumes the maximal whitespace run up to and including its
  last newline (shorter backtracking choices put a whitespace character
  where a digit is required next, so they all fail);
* `.*?\n` (without DOTALL) consumes up to and including the first
  newline;
* the text group `[\s\S]*?` is lazy: it stops at the first position
  where the lookahead `\n{2,}\d+\s*\n|\Z` holds;
* `re.finditer` tries each position left to right, resuming after the
  end of every match; `^` holds at position 0 and after a newline.
-/

/-- `\r\n` → `\n` then `\r` → `\n` (the two `content.replace` calls). -/
def normalizeNewlines : List Char → List Char
  | [] => []
  | '\r' :: '\n' :: r => '\n' :: normalizeNewlines r
  | '\r' :: r => '\n' :: normalizeNewlines r
  | c :: r => c :: normalizeNewlines r

/-- `\d{2}:\d{2}:\d{2}[,\.]\d{3}`: the 12-character timestamp group.
Returns the matched characters and the rest. -/
def parseTime : List Char → Option (List Char × List Char)
  | a :: b :: c :: d :: e :: f :: g :: h :: s :: x :: y :: z :: rest =>
    if isDig a && isDig b && c = ':' && isDig d && isDig e && f = ':' &&
       isDig g && isDig h && (s = ',' || s = '.') && isDig x && isDig y && isDig z
    then some ([a, b, c, d, e, f, g, h, s, x, y, z], rest)
    else none
  | _ => none

/-- `.replace('.', ',')` applied to a timestamp group. -/
def dotComma (c : Char) : Char := if c = '.' then ',' else c

/-- `\s*\n` with greedy backtracking: consume the maximal whitespace
run up to and including its last newline; `none` when the run holds no
newline.  (Any shorter backtracking choice of the newline leaves a
whitespace character where the next pattern element, a digit, is
required, so only this choice can extend to a full match.) -/
def dropLastNL (s : List Char) : Option (List Char) :=
  let run := s.takeWhile isWS
  if run.contains '\n' then
    some ((run.reverse.takeWhile (fun c => c ≠ '\n')).reverse ++ s.drop run.length)
  else none

/-- `.*?\n` (no DOTALL): drop everything up to and including the first
newline; `none` when there is no newline. -/
def dropFirstNL : List Char → Option (List Char)
  | [] => none
  | '\n' :: r => some r
  | _ :: r => dropFirstNL r

/-- The lookahead `\n{2,}\d+\s*\n|\Z` at the head of `s`. -/
def lookaheadOk (s : List Char) : Bool :=
  match s with
  | [] => true
  | _ =>
    let nls := s.takeWhile (fun c => c = '\n')
    if nls.length ≥ 2 then
      let r2 := s.drop nls.length
      let ds := r2.takeWhile isDig
      if ds = [] then false
      else ((r2.drop ds.length).takeWhile isWS).contains '\n'
    else false

/-- The lazy text group `([\s\S]*?)`: the shortest prefix after which
`lookaheadOk` holds, together with the rest. -/
def takeText : List Char → List Char × List Char
  | [] => ([], [])
  | c :: r =>
    if lookaheadOk (c :: r) then ([], c :: r)
    else
      let p := takeText r
      (c :: p.1, p.2)

/-- Result of one successful match of the block pattern. -/
structure BlockMatch where
  idx : Nat
  t1 : List Char
  t2 : List Char
  raw : List Char
  nl : Bool
  rem : List Char
deriving Repr

/-- Attempt to match the block pattern at the head of `s` (the `^`
anchor is checked by the caller). -/
def matchBlock (s : List Char) : Option BlockMatch :=
  let s1 := s.dropWhile isWS
  let ds := s1.takeWhile isDig
  if ds = [] then none
  else
    match dropLastNL (s1.drop ds.length) with
    | none => none
    | some s3 =>
      match parseTime s3 with
      | none => none
      | some (t1, s4) =>
        match (s4.dropWhile isWS) with
        | '-' :: '-' :: '>' :: s6 =>
          match parseTime (s6.dropWhile isWS) with
          | none => none
          | some (t2, s8) =>
            match dropFirstNL s8 with
            | none => none
            | some s9 =>
              let p := takeText s9
              some { idx := digitsToNat ds,
                     t1 := t1.map dotComma,
                     t2 := t2.map dotComma,
                     raw := p.1,
                     nl := (match p.1.getLast? with
                            | some ch => ch = '\n'
                            | none => true),
                     rem := p.2 }
        | _ => none

/-- `re.finditer` over the content: try a match at every line start,
resuming after each match end; collect the blocks whose stripped text
is non-empty (`if text:`).  `fuel` bounds the number of scanning steps;
every step consumes at least one character, so `length + 1` suffices. -/
def scanAux : Nat → Bool → List Char → List SubtitleBlock
  | 0, _, _ => []
  | _ + 1, _, [] => []
  | fuel + 1, lineStart, c :: rest =>
    if lineStart then
      match matchBlock (c :: rest) with
      | some m =>
        let txt := pstrip m.raw
        if txt = [] then scanAux fuel m.nl m.rem
        else { index := m.idx, start_time := m.t1, end_time := m.t2,
               text := txt, translated_text := none } :: scanAux fuel m.nl m.rem
      | none => scanAux fuel (c = '\n') rest
    else scanAux fuel (c = '\n') rest

/-- Parse normalised content into subtitle blocks. -/
def parseContent (content : List Char) : List SubtitleBlock :=
  scanAux (content.length + 1) true content

/-- `SRTParser.parse_srt`.  The file system is modelled as the optional
decoded content of the input file: `none` models `FileNotFoundError`
or any other read failure, for which the source logs an error and
returns the empty list. -/
def parse_srt (readFile : Option (List Char)) : List SubtitleBlock :=
  match readFile with
  | none => []
  | some content => parseContent (normalizeNewlines content)

/-! ## Format Writer (`SRTParser.write_srt`) -/

/-- Python `a or b` for an optional translation (`None` and the empty
string are falsy). -/
def orText (t : Option (List Char)) (text : List Char) : List Char :=
  match t with
  | some s => if s = [] then text else s
  | none => text

/-- The body written for one cue: `(translated_text or text).strip()`. -/
def writeBody (c : SubtitleBlock) : List Char :=
  pstrip (orText c.translated_text c.text)

/-- The serialized form of one cue: index line, timing line, body, one
blank separator line. -/
def cueBlock (c : SubtitleBlock) : List Char :=
  natDigits c.index ++ '\n' ::
    (c.start_time ++ ' ' :: '-' :: '-' :: '>' :: ' ' :: c.end_time) ++ '\n' ::
    writeBody c ++ ['\n', '\n']

/-- Stable insertion by `index` (insert before the first cue of
greater-or-equal index never happens; we skip strictly smaller and stop
at the first greater-or-equal, keeping earlier input cues of equal
index in front). -/
def insertByIndex (c : SubtitleBlock) : List SubtitleBlock → List SubtitleBlock
  | [] => [c]
  | d :: ds => if c.index ≤ d.index then c :: d :: ds else d :: insertByIndex c ds

/-- `sorted(subtitles, key=lambda s: s.index)`: Python's `sorted` is a
stable sort, and a stable sort is uniquely determined by the three
properties proved below (permutation, sortedness, preservation of the
subsequence at each key); insertion sort is one implementation. -/
def sortByIndex : List SubtitleBlock → List SubtitleBlock
  | [] => []
  | c :: cs => insertByIndex c (sortByIndex cs)

/-- Serialisation of a list of cues in the given order. -/
def concatBlocks : List SubtitleBlock → List Char
  | [] => []
  | c :: cs => cueBlock c ++ concatBlocks cs

/-- The full document text written by `SRTParser.write_srt`. -/
def write_srt_content (subs : List SubtitleBlock) : List Char :=
  concatBlocks (sortByIndex subs)

/-! ## Translation backend and per-item translation
(`GroqTranslator._call_api`, `GroqTranslator.translate_text`) -/

/-- A backend behaviour: the raw message content returned by the k-th
API call of the run (`none` models an exception or null content). -/
def Backend : Type := Nat → Option (List Char)

/-- `GroqTranslator._call_api`: `if content: return content.strip()`,
else `None`; any exception also yields `None`. -/
def call_api (backend : Backend) (k : Nat) : Option (List Char) :=
  match backend k with
  | some content => if content = [] then none else some (pstrip content)
  | none => none

/-- Python truthiness of an optional string (`None` and `""` falsy). -/
def optTruthy (r : Option (List Char)) : Bool :=
  match r with
  | some s => s ≠ []
  | none => false

/-- `re.sub(r'^(ترجمه فارسی:|ترجمه:)\s*', '', clean_result)`: remove a
leading translation label (first alternative tried first) and the
whitespace after it. -/
def stripLabel (s : List Char) : List Char :=
  if "ترجمه فارسی:".toList.isPrefixOf s then
    (s.drop "ترجمه فارسی:".toList.length).dropWhile isWS
  else if "ترجمه:".toList.isPrefixOf s then
    (s.drop "ترجمه:".toList.length).dropWhile isWS
  else s

/-- Cleaning of a successful single-item response in
`translate_text`: `result.strip()` then label removal. -/
def cleanSingle (r : List Char) : List Char := stripLabel (pstrip r)

/-- The retry loop body of `GroqTranslator.translate_text`:
`for attempt in range(retry_count)` with `remaining` attempts left
(`attempt + remaining = retry_count`).  Returns the translation (the
original `text` when every attempt fails), the next API call number,
and the list of back-off waits (in seconds) performed by
`time.sleep(2 ** attempt)`. -/
def ttGo (backend : Backend) (text : List Char) (retry_count : Nat) :
    Nat → Nat → Nat → List Char × Nat × List Nat
  | _, 0, k => (text, k, [])
  | attempt, remaining + 1, k =>
    match call_api backend k with
    | some result =>
      if result ≠ [] then (cleanSingle result, k + 1, [])
      else
        let p := ttGo backend text retry_count (attempt + 1) remaining (k + 1)
        if attempt < retry_count - 1 then (p.1, p.2.1, 2 ^ attempt :: p.2.2) else p
    | none =>
      let p := ttGo backend text retry_count (attempt + 1) remaining (k + 1)
      if attempt < retry_count - 1 then (p.1, p.2.1, 2 ^ attempt :: p.2.2) else p

/-- `GroqTranslator.translate_text` (default `retry_count = 3`),
starting at API call number `k`. -/
def translate_text (backend : Backend) (text : List Char)
    (retry_count : Nat) (k : Nat) : List Char × Nat × List Nat :=
  ttGo backend text retry_count 0 retry_count k

/-! ## Batch reconciliation (`GroqTranslator.translate_batch`)

Translations are extracted from a batch response with
`re.findall(r'\[(\d+)\]\s*(.*?)(?=\n\s*\[\d+\]|\Z)', result, re.DOTALL)`.
The scanner below implements that pattern: a marker `[digits]`, then
the maximal whitespace run (`\s*` greedy; with DOTALL the lazy group
can always extend to the end of the string where `\Z` holds, so the
greedy run is never backtracked), then the shortest — lazily matched —
segment after which `\n\s*\[\d+\]` or the end of the string follows. -/

/-- `\[(\d+)\]` at the head of the list: the marker value and the rest. -/
def parseMarker (s : List Char) : Option (Nat × List Char) :=
  match s with
  | '[' :: r =>
    let ds := r.takeWhile isDig
    if ds = [] then none
    else
      match r.drop ds.length with
      | ']' :: r2 => some (digitsToNat ds, r2)
      | _ => none
  | _ => none

/-- The lookahead `\n\s*\[\d+\]` at the head of the list. -/
def pairLookahead (s : List Char) : Bool :=
  match s with
  | '\n' :: r => (parseMarker (r.dropWhile isWS)).isSome
  | _ => false

/-- The lazy segment `(.*?)` (DOTALL) before `\n\s*\[\d+\]|\Z`. -/
def takeSeg : List Char → List Char × List Char
  | [] => ([], [])
  | c :: r =>
    if pairLookahead (c :: r) then ([], c :: r)
    else
      let p := takeSeg r
      (c :: p.1, p.2)

/-- `re.findall` scanning loop, fuel-driven (every step consumes at
least one character, so `length + 1` fuel suffices). -/
def findPairsAux : Nat → List Char → List (Nat × List Char)
  | 0, _ => []
  | _ + 1, [] => []
  | fuel + 1, c :: rest =>
    match parseMarker (c :: rest) with
    | some (n, afterMarker) =>
      let p := takeSeg (afterMarker.dropWhile isWS)
      (n, p.1) :: findPairsAux fuel p.2
    | none => findPairsAux fuel rest

/-- All `(marker, segment)` pairs of a batch response. -/
def findPairs (s : List Char) : List (Nat × List Char) :=
  findPairsAux (s.length + 1) s

/-- `re.sub(r'\n{3,}', '\n\n', s)`: collapse each run of three or more
newlines to exactly two.  `pending` counts the newlines read so far in
the current run. -/
def collapseNLAux : Nat → List Char → List Char
  | pending, [] => if pending ≥ 3 then ['\n', '\n'] else List.replicate pending '\n'
  | pending, '\n' :: r => collapseNLAux (pending + 1) r
  | pending, c :: r =>
    (if pending ≥ 3 then ['\n', '\n'] else List.replicate pending '\n') ++
      c :: collapseNLAux 0 r

def collapseNL (s : List Char) : List Char := collapseNLAux 0 s

/-- Cleaning of one extracted batch segment: `translation.strip()` then
newline collapsing. -/
def cleanSeg (seg : List Char) : List Char := collapseNL (pstrip seg)

/-- Set the translation of the cue at position `i` of the batch
(`batch[idx_local].translated_text = clean_translation`). -/
def setTrans : List SubtitleBlock → Nat → List Char → List SubtitleBlock
  | [], _, _ => []
  | c :: cs, 0, v => { c with translated_text := some v } :: cs
  | c :: cs, i + 1, v => c :: setTrans cs i v

/-- The `for num_str, translation in pairs` loop: apply each in-range
pair to the batch, tracking `translations_applied`. -/
def applyPairs : List (Nat × List Char) → List SubtitleBlock → Bool →
    List SubtitleBlock × Bool
  | [], batch, applied => (batch, applied)
  | (num, tr) :: ps, batch, applied =>
    if num - 1 < batch.length && 1 ≤ num then
      applyPairs ps (setTrans batch (num - 1) (cleanSeg tr)) true
    else applyPairs ps batch applied

/-- Per-item fallback applied to every cue of the batch (the
`if not result:` branch): `sub.translated_text =
self.translate_text(sub.text, context)` for each cue in order. -/
def fallbackAll (backend : Backend) : List SubtitleBlock → Nat →
    List SubtitleBlock × Nat
  | [], k => ([], k)
  | c :: cs, k =>
    let t := translate_text backend c.text 3 k
    let p := fallbackAll backend cs t.2.1
    ({ c with translated_text := some t.1 } :: p.1, p.2)

/-- Per-item fallback for the `if not translations_applied:` branch:
only cues whose `translated_text` is falsy are retranslated. -/
def fallbackMissing (backend : Backend) : List SubtitleBlock → Nat →
    List SubtitleBlock × Nat
  | [], k => ([], k)
  | c :: cs, k =>
    if optTruthy c.translated_text then
      let p := fallbackMissing backend cs k
      (c :: p.1, p.2)
    else
      let t := translate_text backend c.text 3 k
      let p := fallbackMissing backend cs t.2.1
      ({ c with translated_text := some t.1 } :: p.1, p.2)

/-- One batch step of `GroqTranslator.translate_batch` applied to
`batch = subtitles[i:i+batch_size]`.  Returns the updated batch and
the next API call number. -/
def batchStep (backend : Backend) (batch : List SubtitleBlock) (k : Nat) :
    List SubtitleBlock × Nat :=
  match call_api backend k with
  | none => fallbackAll backend batch (k + 1)
  | some result =>
    if result = [] then fallbackAll backend batch (k + 1)
    else
      match applyPairs (findPairs result) batch false with
      | (batch2, true) => (batch2, k + 1)
      | (batch2, false) => fallbackMissing backend batch2 (k + 1)

/-- The `for i in range(0, total, batch_size)` loop, fuel-driven: each
step consumes a non-empty chunk when `batch_size > 0`, so fuel
`subs.length` suffices.  (With `batch_size = 0` the Python `range`
raises `ValueError`; the model then merely exhausts its fuel.) -/
def tbAux (backend : Backend) (batch_size : Nat) :
    Nat → Nat → List SubtitleBlock → List SubtitleBlock × Nat
  | 0, k, subs => (subs, k)
  | _ + 1, k, [] => ([], k)
  | fuel + 1, k, subs@(_ :: _) =>
    let step := batchStep backend (subs.take batch_size) k
    let rest := tbAux backend batch_size fuel step.2 (subs.drop batch_size)
    (step.1 ++ rest.1, rest.2)

/-- `GroqTranslator.translate_batch` starting at API call number `k`. -/
def translate_batch (backend : Backend) (batch_size : Nat) (k : Nat)
    (subs : List SubtitleBlock) : List SubtitleBlock × Nat :=
  tbAux backend batch_size subs.length k subs

/-! ## Manager (`SRTTranslationManager.translate_file`) -/

/-- The final summary's count of successfully translated cues:
`sum(1 for s in translated_subtitles if s.translated_text)`. -/
def success_count (subs : List SubtitleBlock) : Nat :=
  (subs.filter (fun s => optTruthy s.translated_text)).length

/-- `SRTTranslationManager.translate_file`: parse, abort with `None`
when no subtitles were parsed (`if not subtitles:`), otherwise
translate and write.  The result models the written output document
(`None` when no output is produced). -/
def translate_file (readFile : Option (List Char)) (backend : Backend)
    (batch_size : Nat) : Option (List Char) :=
  let subs := parse_srt readFile
  if subs = [] then none
  else some (write_srt_content (translate_batch backend batch_size 0 subs).1)

/-! ## Predicates used in theorem statements -/

/-- The normalised timestamp shape `HH:MM:SS,mmm` stored on parsed
cues (comma separator). -/
def validTime (t : List Char) : Bool :=
  match t with
  | [a, b, c, d, e, f, g, h, s, x, y, z] =>
    isDig a && isDig b && c = ':' && isDig d && isDig e && f = ':' &&
    isDig g && isDig h && s = ',' && isDig x && isDig y && isDig z
  | _ => false

/-- A suffix of a cue body at which the reader's text-group lookahead
`\n{2,}\d+\s*\n|\Z` could fire once the body is embedded in a written
document (followed there by a blank separator line): at least two
newlines, then digits, then either a whitespace run containing a
newline or a whitespace-only remainder (which the following blank
separator line extends with a newline). -/
def badSuffix (v : List Char) : Bool :=
  let nls := v.takeWhile (fun c => c = '\n')
  decide (nls.length ≥ 2) &&
    (let r2 := v.drop nls.length
     let ds := r2.takeWhile isDig
     (!ds.isEmpty) &&
       (let r3 := r2.drop ds.length
        (r3.takeWhile isWS).contains '\n' || r3.takeWhile isWS == r3))

/-- A cue body is safe for the round trip when no suffix of it can
retrigger the reader's terminating lookahead early. -/
def safeBody (b : List Char) : Bool := b.tails.all (fun v => !badSuffix v)

/-- A cue as produced by the Format Reader that additionally avoids the
early-lookahead pitfall: no translation yet, non-empty stripped body
without carriage returns whose suffixes cannot fake a blank-line/index
boundary, and normalised timestamps. -/
def GoodCue (c : SubtitleBlock) : Prop :=
  c.translated_text = none ∧ c.text ≠ [] ∧ pstrip c.text = c.text ∧
  '\r' ∉ c.text ∧ safeBody c.text = true ∧
  validTime c.start_time = true ∧ validTime c.end_time = true

instance (c : SubtitleBlock) : Decidable (GoodCue c) := by
  unfold GoodCue; infer_instance

/-- The translation-independent fields of a cue. -/
def blockShape (c : SubtitleBlock) : Nat × List Char × List Char × List Char :=
  (c.index, c.start_time, c.end_time, c.text)

/-! ## Concrete instances used by counterexamples and witnesses -/

/-- A backend whose every call fails (exception / empty content). -/
def failBackend : Backend := fun _ => none

/-- A backend whose first call returns the full 3-marker batch
response and whose later calls return a translation `X`. -/
def fullBatchBackend : Backend := fun k =>
  if k = 0 then some "[1] A\n[2] B\n[3] C".toList else some "X".toList

/-- A backend whose first call returns a partial batch response
(markers 1 and 3 only) and whose later calls return a translation `X`. -/
def partialBatchBackend : Backend := fun k =>
  if k = 0 then some "[1] A\n[3] C".toList else some "X".toList

/-- A concrete cue for witnesses. -/
def mkCue (i : Nat) (t : String) : SubtitleBlock :=
  { index := i, start_time := "00:00:01,000".toList, end_time := "00:00:02,000".toList,
    text := t.toList }

/-- The document of the round-trip counterexample: its last block's
text runs to the end of the document and ends with a blank line
followed by a digit line. -/
def roundTripDoc : List Char := "1\n00:00:00,000 --> 00:00:01,000\nA\n\n2".toList

example : parse_srt (some ("1\n00:00:01.000 --> 00:00:02.500\nHei\n\n2\n00:00:03,000 --> 00:00:04,000\nTakk\n\n".toList)) =
    [{ index := 1, start_time := "00:00:01,000".toList, end_time := "00:00:02,500".toList,
       text := "Hei".toList },
     { index := 2, start_time := "00:00:03,000".toList, end_time := "00:00:04,000".toList,
       text := "Takk".toList }] := by decide

example : parse_srt (some ("1\n00:00:00,000 --> 00:00:01,000\nA\n\n2".toList)) =
    [{ index := 1, start_time := "00:00:00,000".toList, end_time := "00:00:01,000".toList,
       text := "A\n\n2".toList }] := by decide

/-! # Theorems -/

/-! ## Generic list helper lemmas -/

theorem takeWhile_append_all {p : Char → Bool} {u : List Char} (v : List Char)
    (h : ∀ c ∈ u, p c = true) :
    (u ++ v).takeWhile p = u ++ v.takeWhile p := by
  induction u with
  | nil => simp
  | cons c u ih =>
    rw [List.cons_append, List.takeWhile_cons_of_pos (h c (by simp)),
      ih (fun x hx => h x (by simp [hx]))]
    simp

theorem dropWhile_append_all {p : Char → Bool} {u : List Char} (v : List Char)
    (h : ∀ c ∈ u, p c = true) :
    (u ++ v).dropWhile p = v.dropWhile p := by
  induction u with
  | nil => simp
  | cons c u ih =>
    simp only [List.cons_append, List.dropWhile_cons, h c (by simp)]
    exact ih (fun x hx => h x (by simp [hx]))

theorem takeWhile_append_stop {p : Char → Bool} {u : List Char} (v : List Char)
    (h : u.takeWhile p ≠ u) :
    (u ++ v).takeWhile p = u.takeWhile p := by
  induction u with
  | nil => simp at h
  | cons c u ih =>
    by_cases hc : p c = true
    · rw [List.takeWhile_cons_of_pos hc] at h ⊢
      rw [List.cons_append, List.takeWhile_cons_of_pos hc]
      have h2 : u.takeWhile p ≠ u := by
        intro he; exact h (by rw [he])
      rw [ih h2]
    · rw [List.cons_append, List.takeWhile_cons_of_neg hc, List.takeWhile_cons_of_neg hc]

theorem dropWhile_cons_of_neg {p : Char → Bool} {c : Char} (l : List Char)
    (h : p c = false) : (c :: l).dropWhile p = c :: l := by
  simp [List.dropWhile_cons, h]

theorem dropWhile_head_false {p : Char → Bool} :
    ∀ {l : List Char} {c : Char}, (l.dropWhile p).head? = some c → p c = false
  | [], _, h => by simp at h
  | x :: l, c, h => by
    by_cases hx : p x = true
    · rw [List.dropWhile_cons_of_pos hx] at h
      exact dropWhile_head_false h
    · rw [List.dropWhile_cons_of_neg hx] at h
      simp at h
      rw [← h]
      exact Bool.eq_false_iff.mpr hx

/-! ## Character class facts -/

theorem isWS_isDig_false {c : Char} (h : isWS c = true) : isDig c = false := by
  simp only [isWS, Bool.or_eq_true, decide_eq_true_eq] at h
  rcases h with ((((((((((h | h) | h) | h) | h) | h) | h) | h) | h) | h) | h) | h <;>
    subst h <;> decide

theorem isDig_isWS_false {c : Char} (h : isDig c = true) : isWS c = false := by
  cases hw : isWS c with
  | false => rfl
  | true => rw [isWS_isDig_false hw] at h; exact absurd h (by simp)

theorem isDig_ne_newline {c : Char} (h : isDig c = true) : c ≠ '\n' := by
  intro he; subst he; exact absurd h (by decide)

theorem isDig_ne_dot {c : Char} (h : isDig c = true) : c ≠ '.' := by
  intro he; subst he; exact absurd h (by decide)

theorem isDig_ne_cr {c : Char} (h : isDig c = true) : c ≠ '\r' := by
  intro he; subst he; exact absurd h (by decide)


/-! ## `natDigits` facts -/

theorem isDig_digChar {n : Nat} (h : n < 10) : isDig (digChar n) = true := by
  interval_cases n <;> decide

theorem digVal_digChar {n : Nat} (h : n < 10) : digVal (digChar n) = n := by
  interval_cases n <;> decide

theorem natDigitsGo_append : ∀ fuel n acc,
    natDigitsGo fuel n acc = natDigitsGo fuel n [] ++ acc := by
  intro fuel
  induction fuel with
  | zero => intro n acc; simp [natDigitsGo]
  | succ f ih =>
    intro n acc
    unfold natDigitsGo
    split
    · simp
    · rw [ih (n / 10) (digChar (n % 10) :: acc), ih (n / 10) [digChar (n % 10)]]
      simp

theorem natDigits_ne_nil (n : Nat) : natDigits n ≠ [] := by
  unfold natDigits natDigitsGo
  split
  · simp
  · rw [natDigitsGo_append]; simp

theorem natDigits_all_digits (n : Nat) : ∀ c ∈ natDigits n, isDig c = true := by
  suffices h : ∀ fuel n c, c ∈ natDigitsGo fuel n [] → isDig c = true by
    intro c hc; exact h (n + 1) n c hc
  intro fuel
  induction fuel with
  | zero => intro n c hc; simp [natDigitsGo] at hc
  | succ f ih =>
    intro n c hc
    unfold natDigitsGo at hc
    split at hc
    · rename_i hn
      rcases List.mem_cons.mp hc with h | h
      · subst h; exact isDig_digChar hn
      · simp at h
    · rw [natDigitsGo_append] at hc
      rcases List.mem_append.mp hc with h | h
      · exact ih (n / 10) c h
      · rcases List.mem_singleton.mp h with rfl
        exact isDig_digChar (Nat.mod_lt _ (by omega))

theorem digitsToNat_append_single (xs : List Char) (c : Char) :
    digitsToNat (xs ++ [c]) = 10 * digitsToNat xs + digVal c := by
  unfold digitsToNat
  rw [List.foldl_append]
  rfl

theorem digitsToNat_natDigits (n : Nat) : digitsToNat (natDigits n) = n := by
  suffices h : ∀ fuel n, n < fuel → digitsToNat (natDigitsGo fuel n []) = n by
    exact h (n + 1) n (Nat.lt_succ_self n)
  intro fuel
  induction fuel with
  | zero => intro n hn; omega
  | succ f ih =>
    intro n hn
    unfold natDigitsGo
    split
    · rename_i h10
      show digitsToNat ([] ++ [digChar n]) = n
      rw [digitsToNat_append_single]
      simp [digitsToNat, digVal_digChar h10]
    · rename_i h10
      rw [natDigitsGo_append, digitsToNat_append_single]
      rw [ih (n / 10) (by omega)]
      rw [digVal_digChar (Nat.mod_lt _ (by omega))]
      omega

/-! ## Claim C10: empty-string translation falls back to source text -/

/-- C10: a cue whose `translated_text` is the empty string is written
with its source text (Python truthiness decides presence of a
translation) and is not counted as successfully translated in the final
summary. -/
theorem spec_C10_empty_translation (c : SubtitleBlock) (subs : List SubtitleBlock)
    (h : c.translated_text = some []) :
    writeBody c = pstrip c.text ∧ success_count (c :: subs) = success_count subs := by
  constructor
  · unfold writeBody orText
    rw [h]
    simp
  · unfold success_count
    rw [List.filter_cons]
    simp [optTruthy, h]

theorem spec_C10_empty_translation_witness :
    writeBody { mkCue 1 "Hei" with translated_text := some [] } = "Hei".toList ∧
    success_count [{ mkCue 1 "Hei" with translated_text := some [] }] = 0 := by
  have h := spec_C10_empty_translation { mkCue 1 "Hei" with translated_text := some [] } [] rfl
  exact ⟨h.1.trans (by decide), h.2.trans (by decide)⟩

/-! ## Claim C4: missing input file -/

/-- C4 counterexample: a missing or unreadable file does not produce a
failure distinct from an empty parse — `parse_srt` returns the empty
cue sequence, the same value it returns for readable empty content. -/
theorem spec_C4_counterexample :
    parse_srt none = ([] : List SubtitleBlock) ∧
    parse_srt (some []) = ([] : List SubtitleBlock) :=
  ⟨rfl, by decide⟩

/-- C4 amended: for a missing/unreadable file the reader logs the error
and returns the empty cue sequence, indistinguishable to the caller
from a readable file with no parseable cues; `translate_file` then
aborts with no output in both cases alike. -/
theorem spec_C4_amended (backend : Backend) (bs : Nat) :
    translate_file none backend bs = none ∧ translate_file (some []) backend bs = none :=
  ⟨rfl, rfl⟩

/-! ## Claim C5: the writer emits a stable index-ascending order -/

theorem insertByIndex_perm (c : SubtitleBlock) (l : List SubtitleBlock) :
    (insertByIndex c l).Perm (c :: l) := by
  induction l with
  | nil => exact List.Perm.refl _
  | cons d ds ih =>
    unfold insertByIndex
    split
    · exact List.Perm.refl _
    · exact (List.Perm.cons d ih).trans (List.Perm.swap c d ds)

theorem sortByIndex_perm (l : List SubtitleBlock) : (sortByIndex l).Perm l := by
  induction l with
  | nil => exact List.Perm.refl _
  | cons c cs ih =>
    exact (insertByIndex_perm c (sortByIndex cs)).trans (List.Perm.cons c ih)

theorem insertByIndex_sorted (c : SubtitleBlock) (l : List SubtitleBlock)
    (h : List.Sorted (fun a b => a.index ≤ b.index) l) :
    List.Sorted (fun a b => a.index ≤ b.index) (insertByIndex c l) := by
  induction l with
  | nil => simp [insertByIndex]
  | cons d ds ih =>
    rw [List.sorted_cons] at h
    unfold insertByIndex
    split
    · rename_i hc
      rw [List.sorted_cons]
      refine ⟨?_, List.sorted_cons.mpr h⟩
      intro b hb
      rcases List.mem_cons.mp hb with rfl | hb
      · exact hc
      · exact hc.trans (h.1 b hb)
    · rename_i hc
      rw [List.sorted_cons]
      refine ⟨?_, ih h.2⟩
      intro b hb
      have hb2 := (insertByIndex_perm c ds).mem_iff.mp hb
      rcases List.mem_cons.mp hb2 with rfl | hb2
      · omega
      · exact h.1 b hb2

theorem sortByIndex_sorted (l : List SubtitleBlock) :
    List.Sorted (fun a b => a.index ≤ b.index) (sortByIndex l) := by
  induction l with
  | nil => simp [sortByIndex]
  | cons c cs ih => exact insertByIndex_sorted c _ ih

theorem insertByIndex_filter (c : SubtitleBlock) (l : List SubtitleBlock) (n : Nat) :
    (insertByIndex c l).filter (fun x => x.index == n) =
      (c :: l).filter (fun x => x.index == n) := by
  induction l with
  | nil => rfl
  | cons d ds ih =>
    unfold insertByIndex
    split
    · rfl
    · rename_i hc
      rw [List.filter_cons, ih]
      by_cases hcn : c.index = n
      · have hdn : (d.index == n) = false := by
          simp only [beq_eq_false_iff_ne, ne_eq]
          omega
        have hcb : (c.index == n) = true := by simp [hcn]
        simp [List.filter_cons, hdn, hcb]
      · have hcnb : (c.index == n) = false := by
          simp only [beq_eq_false_iff_ne, ne_eq]; exact hcn
        simp [List.filter_cons, hcnb]

theorem sortByIndex_filter (l : List SubtitleBlock) (n : Nat) :
    (sortByIndex l).filter (fun x => x.index == n) = l.filter (fun x => x.index == n) := by
  induction l with
  | nil => rfl
  | cons c cs ih =>
    show (insertByIndex c (sortByIndex cs)).filter _ = _
    rw [insertByIndex_filter, List.filter_cons, List.filter_cons, ih]

/-- C5: the Format Writer serializes the cues sorted by `index`
ascending, with a stable sort: for any input order it writes a
permutation of the input in weakly increasing index order, and for each
index value the subsequence of cues carrying it is exactly the input's
subsequence, in input order. -/
theorem spec_C5_stable_sort (subs : List SubtitleBlock) :
    write_srt_content subs = concatBlocks (sortByIndex subs) ∧
    (sortByIndex subs).Perm subs ∧
    List.Sorted (fun a b => a.index ≤ b.index) (sortByIndex subs) ∧
    ∀ n, (sortByIndex subs).filter (fun x => x.index == n) =
      subs.filter (fun x => x.index == n) :=
  ⟨rfl, sortByIndex_perm subs, sortByIndex_sorted subs, fun n => sortByIndex_filter subs n⟩

/-! ## Claim C8: the orchestrator only writes `translated_text` -/

theorem setTrans_shape (l : List SubtitleBlock) :
    ∀ i v, (setTrans l i v).map blockShape = l.map blockShape := by
  induction l with
  | nil => intro i v; rfl
  | cons c cs ih =>
    intro i v
    cases i with
    | zero => simp [setTrans, blockShape]
    | succ j => simp [setTrans, ih]

theorem setTrans_length (l : List SubtitleBlock) :
    ∀ i v, (setTrans l i v).length = l.length := by
  have h := setTrans_shape l
  intro i v
  have := congrArg List.length (h i v)
  simpa using this

theorem applyPairs_shape (ps : List (Nat × List Char)) :
    ∀ l b, (applyPairs ps l b).1.map blockShape = l.map blockShape := by
  induction ps with
  | nil => intro l b; rfl
  | cons p ps ih =>
    intro l b
    unfold applyPairs
    split
    · rw [ih, setTrans_shape]
    · exact ih l b

theorem applyPairs_length (ps : List (Nat × List Char)) (l : List SubtitleBlock) (b : Bool) :
    (applyPairs ps l b).1.length = l.length := by
  have := congrArg List.length (applyPairs_shape ps l b)
  simpa using this

theorem fallbackAll_shape (backend : Backend) (l : List SubtitleBlock) :
    ∀ k, (fallbackAll backend l k).1.map blockShape = l.map blockShape := by
  induction l with
  | nil => intro k; rfl
  | cons c cs ih => intro k; simp [fallbackAll, blockShape, ih]

theorem fallbackMissing_shape (backend : Backend) (l : List SubtitleBlock) :
    ∀ k, (fallbackMissing backend l k).1.map blockShape = l.map blockShape := by
  induction l with
  | nil => intro k; rfl
  | cons c cs ih =>
    intro k
    unfold fallbackMissing
    split
    · simp [ih]
    · simp [blockShape, ih]

theorem batchStep_shape (backend : Backend) (batch : List SubtitleBlock) (k : Nat) :
    (batchStep backend batch k).1.map blockShape = batch.map blockShape := by
  unfold batchStep
  split
  · exact fallbackAll_shape backend batch (k + 1)
  · split
    · exact fallbackAll_shape backend batch (k + 1)
    · split
      · rename_i result hcall hne xp batch2 heq
        have h := applyPairs_shape (findPairs result) batch false
        rw [heq] at h
        exact h
      · rename_i result hcall hne xp batch2 heq
        have h := applyPairs_shape (findPairs result) batch false
        rw [heq] at h
        rw [fallbackMissing_shape]
        exact h

theorem tbAux_shape (backend : Backend) (bs : Nat) :
    ∀ fuel k subs, (tbAux backend bs fuel k subs).1.map blockShape = subs.map blockShape := by
  intro fuel
  induction fuel with
  | zero => intro k subs; rfl
  | succ f ih =>
    intro k subs
    cases subs with
    | nil => rfl
    | cons c cs =>
      show ((batchStep backend ((c :: cs).take bs) k).1 ++
        (tbAux backend bs f _ ((c :: cs).drop bs)).1).map blockShape = _
      rw [List.map_append, batchStep_shape, ih]
      rw [← List.map_append, List.take_append_drop]

/-- C8: for every cue list and backend behaviour, the Batch
Orchestrator returns the same cues in the same order — same length,
nothing dropped or duplicated — with `index`, `start_time`, `end_time`
and source `text` unchanged; only `translated_text` can differ. -/
theorem spec_C8_frame (backend : Backend) (bs k : Nat) (subs : List SubtitleBlock) :
    (translate_batch backend bs k subs).1.map blockShape = subs.map blockShape ∧
    (translate_batch backend bs k subs).1.length = subs.length := by
  have h := tbAux_shape backend bs subs.length k subs
  refine ⟨h, ?_⟩
  have := congrArg List.length h
  simpa using this

/-! ## Claim C7: retry back-off in `translate_text` -/

/-- Under a backend whose every call fails the retry loop returns the
original text after `remaining` further calls, sleeping `2 ^ attempt`
seconds after every failed attempt except the last. -/
theorem ttGo_fail (backend : Backend) (text : List Char) (rc : Nat)
    (hfail : ∀ j, call_api backend j = none ∨ call_api backend j = some []) :
    ∀ remaining attempt k, attempt + remaining = rc →
      ttGo backend text rc attempt remaining k =
        (text, k + remaining, (List.range (remaining - 1)).map (fun i => 2 ^ (attempt + i))) := by
  intro remaining
  induction remaining with
  | zero => intro attempt k hsum; simp [ttGo]
  | succ r ih =>
    intro attempt k hsum
    have hrec := ih (attempt + 1) (k + 1) (by omega)
    have hstep : (if attempt < rc - 1 then
        ((ttGo backend text rc (attempt + 1) r (k + 1)).1,
         (ttGo backend text rc (attempt + 1) r (k + 1)).2.1,
         2 ^ attempt :: (ttGo backend text rc (attempt + 1) r (k + 1)).2.2)
        else ttGo backend text rc (attempt + 1) r (k + 1)) =
        (text, k + (r + 1), (List.range r).map (fun i => 2 ^ (attempt + i))) := by
      rw [hrec]
      cases r with
      | zero =>
        have hc : ¬ attempt < rc - 1 := by omega
        rw [if_neg hc]
        simp
      | succ r2 =>
        have hc : attempt < rc - 1 := by omega
        rw [if_pos hc]
        refine Prod.ext rfl (Prod.ext (by simp; omega) ?_)
        show 2 ^ attempt :: (List.range (r2 + 1 - 1)).map (fun i => 2 ^ (attempt + 1 + i)) =
          (List.range (r2 + 1)).map (fun i => 2 ^ (attempt + i))
        rw [List.range_succ_eq_map]
        simp only [Nat.add_one_sub_one, List.map_cons, List.map_map]
        refine congrArg₂ _ (by simp) ?_
        refine List.map_congr_left ?_
        intro i hi
        simp only [Function.comp_apply, Nat.succ_eq_add_one]
        refine congrArg _ (by omega)
    rcases hfail k with h | h
    · show (match call_api backend k with
        | some result => if result ≠ [] then (cleanSingle result, k + 1, [])
            else (if attempt < rc - 1 then _ else _)
        | none => (if attempt < rc - 1 then _ else _)) = _
      rw [h]
      exact hstep
    · show (match call_api backend k with
        | some result => if result ≠ [] then (cleanSingle result, k + 1, [])
            else (if attempt < rc - 1 then _ else _)
        | none => (if attempt < rc - 1 then _ else _)) = _
      rw [h]
      simp only [ne_eq, not_true_eq_false, if_false, reduceIte]
      exact hstep

/-- C7 counterexample: with an always-failing backend and the default
3-attempt ceiling, the observed back-off waits are 1s then 2s — the
loop does not sleep after its final attempt, so the sequence is not
1s, 2s, 4s. -/
theorem spec_C7_counterexample :
    (translate_text failBackend "x".toList 3 0).2.2 = [1, 2] ∧
    (translate_text failBackend "x".toList 3 0).2.2 ≠ [1, 2, 4] := by decide

/-- C7 amended: per-item delivery is attempted exactly `retry_count`
times; after each failed attempt except the last the orchestrator
sleeps `2 ^ attempt` seconds (attempt counted from 0), so an
always-failing backend with ceiling `rc` produces the wait sequence
`2^0, …, 2^(rc-2)` — 1s, 2s for the default ceiling of 3 — and the
original text is returned. -/
theorem spec_C7_amended (backend : Backend)
    (hfail : ∀ j, call_api backend j = none ∨ call_api backend j = some [])
    (text : List Char) (rc k : Nat) :
    translate_text backend text rc k =
      (text, k + rc, (List.range (rc - 1)).map (fun a => 2 ^ a)) := by
  unfold translate_text
  rw [ttGo_fail backend text rc hfail rc 0 k (by omega)]
  simp

theorem spec_C7_amended_witness :
    translate_text failBackend "x".toList 3 0 = ("x".toList, 3, [1, 2]) := by
  have h := spec_C7_amended failBackend (fun j => Or.inl rfl) "x".toList 3 0
  exact h.trans (by decide)

/-! ## Claim C1: fallback exhaustion -/

theorem fallbackAll_fail (backend : Backend)
    (hfail : ∀ j, call_api backend j = none ∨ call_api backend j = some []) :
    ∀ cs k, fallbackAll backend cs k =
      (cs.map (fun c => { c with translated_text := some c.text }), k + 3 * cs.length) := by
  intro cs
  induction cs with
  | nil => intro k; simp [fallbackAll]
  | cons c cs ih =>
    intro k
    show (let t := translate_text backend c.text 3 k
          let p := fallbackAll backend cs t.2.1
          ({ c with translated_text := some t.1 } :: p.1, p.2)) = _
    have ht : translate_text backend c.text 3 k = (c.text, k + 3, [1, 2]) := by
      unfold translate_text
      rw [ttGo_fail backend c.text 3 hfail 3 0 k (by omega)]
      have hw : List.map (fun i => 2 ^ (0 + i)) (List.range (3 - 1)) = [1, 2] := by decide
      rw [hw]
    rw [ht]
    show ({ c with translated_text := some c.text } :: (fallbackAll backend cs (k + 3)).1,
      (fallbackAll backend cs (k + 3)).2) = _
    rw [ih (k + 3)]
    simp only [List.map_cons, List.length_cons]
    refine Prod.ext rfl ?_
    simp
    omega

theorem batchStep_fail (backend : Backend)
    (hfail : ∀ j, call_api backend j = none ∨ call_api backend j = some [])
    (batch : List SubtitleBlock) (k : Nat) :
    batchStep backend batch k =
      (batch.map (fun c => { c with translated_text := some c.text }),
       k + 1 + 3 * batch.length) := by
  unfold batchStep
  rcases hfail k with h | h
  · rw [h]
    exact fallbackAll_fail backend hfail batch (k + 1)
  · rw [h]
    show (if ([] : List Char) = [] then fallbackAll backend batch (k + 1)
      else match applyPairs (findPairs []) batch false with
        | (batch2, true) => (batch2, k + 1)
        | (batch2, false) => fallbackMissing backend batch2 (k + 1)) = _
    rw [if_pos rfl]
    exact fallbackAll_fail backend hfail batch (k + 1)

theorem tbAux_fail (backend : Backend) (bs : Nat) (hbs : 0 < bs)
    (hfail : ∀ j, call_api backend j = none ∨ call_api backend j = some []) :
    ∀ fuel subs k, subs.length ≤ fuel →
      (tbAux backend bs fuel k subs).1 =
        subs.map (fun c => { c with translated_text := some c.text }) := by
  intro fuel
  induction fuel with
  | zero =>
    intro subs k hlen
    have : subs = [] := List.length_eq_zero.mp (by omega)
    subst this
    rfl
  | succ f ih =>
    intro subs k hlen
    cases subs with
    | nil => rfl
    | cons c cs =>
      show ((batchStep backend ((c :: cs).take bs) k).1 ++
        (tbAux backend bs f _ ((c :: cs).drop bs)).1) = _
      rw [batchStep_fail backend hfail]
      rw [ih ((c :: cs).drop bs) _ (by
        rw [List.length_drop]
        simp only [List.length_cons] at hlen ⊢
        omega)]
      rw [← List.map_append, List.take_append_drop]

/-- C1 counterexample: with an always-failing backend the cue's
`translated_text` does not remain unset — the per-item fallback's
terminal `return text` is assigned to it, so it is set to the source
text. -/
theorem spec_C1_counterexample :
    ((translate_batch failBackend 5 0 [mkCue 1 "Hei"]).1.map
      (fun c => c.translated_text)) = [some "Hei".toList] ∧
    (some "Hei".toList : Option (List Char)) ≠ none := by decide

/-- C1 amended: when the per-item fallback exhausts all retry attempts
without a usable response, `translate_text` returns the cue's source
text, which the orchestrator assigns to `translated_text`; the written
output therefore uses the cue's (stripped) source text verbatim for
that cue. -/
theorem spec_C1_amended (backend : Backend)
    (hfail : ∀ j, call_api backend j = none ∨ call_api backend j = some [])
    (bs k : Nat) (hbs : 0 < bs) (subs : List SubtitleBlock) :
    (translate_batch backend bs k subs).1 =
      subs.map (fun c => { c with translated_text := some c.text }) ∧
    ∀ c ∈ (translate_batch backend bs k subs).1, writeBody c = pstrip c.text := by
  have h1 : (translate_batch backend bs k subs).1 =
      subs.map (fun c => { c with translated_text := some c.text }) :=
    tbAux_fail backend bs hbs hfail subs.length subs k (le_refl _)
  refine ⟨h1, ?_⟩
  intro c hc
  rw [h1] at hc
  rcases List.mem_map.mp hc with ⟨c0, hc0, rfl⟩
  unfold writeBody orText
  simp only
  split
  · rfl
  · rfl

theorem spec_C1_amended_witness :
    (translate_batch failBackend 5 0 [mkCue 1 "Hei"]).1 =
      [{ mkCue 1 "Hei" with translated_text := some "Hei".toList }] ∧
    writeBody { mkCue 1 "Hei" with translated_text := some "Hei".toList } = "Hei".toList := by
  have h := spec_C1_amended failBackend (fun j => Or.inl rfl) 5 0 (by omega) [mkCue 1 "Hei"]
  refine ⟨h.1.trans (by decide), ?_⟩
  have h2 := h.2 { mkCue 1 "Hei" with translated_text := some "Hei".toList }
    (by rw [h.1]; decide)
  exact h2.trans (by decide)

/-! ## Claims C2 and C3: batch reconciliation by positional markers -/

theorem tbAux_nil (backend : Backend) (bs : Nat) :
    ∀ fuel k, tbAux backend bs fuel k [] = ([], k) := by
  intro fuel k
  cases fuel with
  | zero => rfl
  | succ f => rfl

/-- A non-empty cue list that fits in one batch is handled by a single
batch step. -/
theorem translate_batch_single (backend : Backend) (bs k : Nat)
    (subs : List SubtitleBlock) (h0 : subs ≠ []) (hlen : subs.length ≤ bs) :
    translate_batch backend bs k subs = batchStep backend subs k := by
  unfold translate_batch
  cases subs with
  | nil => exact absurd rfl h0
  | cons c cs =>
    show ((batchStep backend ((c :: cs).take bs) k).1 ++
      (tbAux backend bs (c :: cs).length.pred (batchStep backend ((c :: cs).take bs) k).2
        ((c :: cs).drop bs)).1,
      (tbAux backend bs (c :: cs).length.pred (batchStep backend ((c :: cs).take bs) k).2
        ((c :: cs).drop bs)).2) = _
    rw [List.take_of_length_le hlen, List.drop_eq_nil_of_le hlen, tbAux_nil]
    simp

theorem setTrans_getElem_ne (l : List SubtitleBlock) :
    ∀ i j v, i ≠ j → (setTrans l i v)[j]? = l[j]? := by
  induction l with
  | nil => intro i j v hij; rfl
  | cons c cs ih =>
    intro i j v hij
    cases i with
    | zero =>
      cases j with
      | zero => exact absurd rfl hij
      | succ j2 => simp [setTrans]
    | succ i2 =>
      cases j with
      | zero => simp [setTrans]
      | succ j2 =>
        simp only [setTrans, List.getElem?_cons_succ]
        exact ih i2 j2 v (by omega)

theorem setTrans_getElem_eq (l : List SubtitleBlock) :
    ∀ i v, (setTrans l i v)[i]? =
      (l[i]?).map (fun c => { c with translated_text := some v }) := by
  induction l with
  | nil => intro i v; rfl
  | cons c cs ih =>
    intro i v
    cases i with
    | zero => simp [setTrans]
    | succ i2 =>
      simp only [setTrans, List.getElem?_cons_succ]
      exact ih i2 v

theorem applyPairs_true (ps : List (Nat × List Char)) :
    ∀ l, (applyPairs ps l true).2 = true := by
  induction ps with
  | nil => intro l; rfl
  | cons p ps ih =>
    intro l
    unfold applyPairs
    split
    · exact ih _
    · exact ih l

theorem applyPairs_applied (ps : List (Nat × List Char)) :
    ∀ l b m seg, (m, seg) ∈ ps → m - 1 < l.length → 1 ≤ m →
      (applyPairs ps l b).2 = true := by
  induction ps with
  | nil => intro l b m seg hm; simp at hm
  | cons p ps ih =>
    intro l b m seg hm h1 h2
    rcases List.mem_cons.mp hm with rfl | hm2
    · unfold applyPairs
      rw [if_pos (by simp; omega)]
      exact applyPairs_true ps _
    · unfold applyPairs
      split
      · exact applyPairs_true ps _
      · exact ih l b m seg hm2 h1 h2

theorem applyPairs_getElem_not_mem (ps : List (Nat × List Char)) :
    ∀ l b j, (∀ p ∈ ps, p.1 ≠ j + 1) → (applyPairs ps l b).1[j]? = l[j]? := by
  induction ps with
  | nil => intro l b j hj; rfl
  | cons p ps ih =>
    intro l b j hj
    unfold applyPairs
    rcases p with ⟨num, tr⟩
    split
    · rename_i hguard
      simp only [Bool.and_eq_true, decide_eq_true_eq] at hguard
      rw [ih _ _ j (fun q hq => hj q (by simp [hq]))]
      refine setTrans_getElem_ne l (num - 1) j _ ?_
      have := hj (num, tr) (by simp)
      simp at this
      omega
    · exact ih l b j (fun q hq => hj q (by simp [hq]))

theorem applyPairs_last_getElem (l2 : List (Nat × List Char)) :
    ∀ l1 l b m seg, 1 ≤ m → m - 1 < l.length → (∀ p ∈ l2, p.1 ≠ m) →
      ((applyPairs (l1 ++ (m, seg) :: l2) l b).1.map (fun c => c.translated_text))[m - 1]? =
        some (some (cleanSeg seg)) := by
  intro l1
  induction l1 with
  | nil =>
    intro l b m seg h1 h2 hl2
    show ((applyPairs ((m, seg) :: l2) l b).1.map (fun c => c.translated_text))[m - 1]? = _
    unfold applyPairs
    rw [if_pos (by simp; omega)]
    rw [List.getElem?_map]
    rw [applyPairs_getElem_not_mem l2 _ _ (m - 1) (fun q hq => by
      have := hl2 q hq
      omega)]
    rw [setTrans_getElem_eq]
    rcases List.getElem?_eq_getElem (l := l) (n := m - 1) h2 with h3
    rw [h3]
    rfl
  | cons p l1' ih =>
    intro l b m seg h1 h2 hl2
    show ((applyPairs ((p :: l1') ++ (m, seg) :: l2) l b).1.map
      (fun c => c.translated_text))[m - 1]? = _
    rw [List.cons_append]
    unfold applyPairs
    rcases p with ⟨num, tr⟩
    split
    · refine ih _ _ m seg h1 ?_ hl2
      rw [setTrans_length]
      exact h2
    · exact ih l b m seg h1 h2 hl2

/-- When the response is truthy and at least one pair applied, the
batch step returns the pair-updated batch and makes no further call. -/
theorem batchStep_applied (backend : Backend) (k : Nat) (resp : List Char)
    (subs batch2 : List SubtitleBlock)
    (hresp : call_api backend k = some resp) (hne : resp ≠ [])
    (hpair : applyPairs (findPairs resp) subs false = (batch2, true)) :
    batchStep backend subs k = (batch2, k + 1) := by
  unfold batchStep
  rw [hresp]
  show (if resp = [] then fallbackAll backend subs (k + 1)
    else match applyPairs (findPairs resp) subs false with
      | (b2, true) => (b2, k + 1)
      | (b2, false) => fallbackMissing backend b2 (k + 1)) = _
  rw [if_neg hne, hpair]

/-- C3: every extracted `(marker, segment)` pair whose 1-based marker
`m` is in batch range assigns the trimmed, newline-collapsed segment as
`translated_text` of the `m`-th cue of the batch — the marker is
interpreted as batch-local position, independent of the cue's document
`index`.  (For a marker repeated in the response, the last occurrence
wins, mirroring the source's overwrite-in-order loop.) -/
theorem spec_C3_marker_position (backend : Backend) (bs k : Nat)
    (subs : List SubtitleBlock) (resp : List Char)
    (l1 l2 : List (Nat × List Char)) (m : Nat) (seg : List Char)
    (h0 : subs ≠ []) (hlen : subs.length ≤ bs)
    (hresp : call_api backend k = some resp) (hne : resp ≠ [])
    (hsplit : findPairs resp = l1 ++ (m, seg) :: l2)
    (hm1 : 1 ≤ m) (hm2 : m ≤ subs.length)
    (hlast : ∀ p ∈ l2, p.1 ≠ m) :
    ((translate_batch backend bs k subs).1.map (fun c => c.translated_text))[m - 1]? =
      some (some (cleanSeg seg)) := by
  have happ : (applyPairs (findPairs resp) subs false).2 = true := by
    refine applyPairs_applied (findPairs resp) subs false m seg ?_ (by omega) hm1
    rw [hsplit]
    simp
  have hget := applyPairs_last_getElem l2 l1 subs false m seg hm1 (by omega) hlast
  rw [← hsplit] at hget
  rcases hpair : applyPairs (findPairs resp) subs false with ⟨batch2, flag⟩
  rw [hpair] at happ hget
  subst happ
  rw [translate_batch_single backend bs k subs h0 hlen,
    batchStep_applied backend k resp subs batch2 hresp hne hpair]
  exact hget

theorem spec_C3_marker_position_witness :
    ((translate_batch fullBatchBackend 5 0
        [mkCue 1 "a", mkCue 2 "b", mkCue 3 "c"]).1.map
      (fun c => c.translated_text))[0]? = some (some "A".toList) ∧
    ((translate_batch fullBatchBackend 5 0
        [mkCue 1 "a", mkCue 2 "b", mkCue 3 "c"]).1.map
      (fun c => c.translated_text))[1]? = some (some "B".toList) ∧
    ((translate_batch fullBatchBackend 5 0
        [mkCue 1 "a", mkCue 2 "b", mkCue 3 "c"]).1.map
      (fun c => c.translated_text))[2]? = some (some "C".toList) := by
  refine ⟨?_, ?_, ?_⟩
  · have h := spec_C3_marker_position fullBatchBackend 5 0
      [mkCue 1 "a", mkCue 2 "b", mkCue 3 "c"] "[1] A\n[2] B\n[3] C".toList
      [] [(2, "B".toList), (3, "C".toList)] 1 "A".toList
      (by decide) (by decide) (by decide) (by decide) (by decide)
      (by decide) (by decide) (by decide)
    exact h.trans (by decide)
  · have h := spec_C3_marker_position fullBatchBackend 5 0
      [mkCue 1 "a", mkCue 2 "b", mkCue 3 "c"] "[1] A\n[2] B\n[3] C".toList
      [(1, "A".toList)] [(3, "C".toList)] 2 "B".toList
      (by decide) (by decide) (by decide) (by decide) (by decide)
      (by decide) (by decide) (by decide)
    exact h.trans (by decide)
  · have h := spec_C3_marker_position fullBatchBackend 5 0
      [mkCue 1 "a", mkCue 2 "b", mkCue 3 "c"] "[1] A\n[2] B\n[3] C".toList
      [(1, "A".toList), (2, "B".toList)] [] 3 "C".toList
      (by decide) (by decide) (by decide) (by decide) (by decide)
      (by decide) (by decide) (by decide)
    exact h.trans (by decide)

/-- C2 counterexample: for a 3-cue batch answered only with markers 1
and 3, cues 1 and 3 receive the batch translations but cue 2 is *not*
resolved by the per-item fallback: its `translated_text` stays unset
and no further backend call is made (the call counter stops at 1), even
though the backend would answer any fallback call. -/
theorem spec_C2_counterexample :
    ((translate_batch partialBatchBackend 5 0
        [mkCue 1 "a", mkCue 2 "b", mkCue 3 "c"]).1.map
      (fun c => c.translated_text)) =
      [some "A".toList, none, some "C".toList] ∧
    (translate_batch partialBatchBackend 5 0
        [mkCue 1 "a", mkCue 2 "b", mkCue 3 "c"]).2 = 1 := by decide

/-- C2 amended: when at least one marker of a batch response is
recognized, the recognized positions receive the batch translations,
and every unmatched cue of the batch is left exactly as it was — the
per-item fallback is not invoked for it (no further backend call is
made); per-item fallback handles batch members only when no marker at
all is recognized or the batch call itself fails. -/
theorem spec_C2_partial_batch (backend : Backend) (bs k : Nat)
    (subs : List SubtitleBlock) (resp : List Char) (j : Nat)
    (h0 : subs ≠ []) (hlen : subs.length ≤ bs)
    (hresp : call_api backend k = some resp) (hne : resp ≠ [])
    (happlied : ∃ p ∈ findPairs resp, 1 ≤ p.1 ∧ p.1 - 1 < subs.length)
    (hj : ∀ p ∈ findPairs resp, p.1 ≠ j + 1) :
    (translate_batch backend bs k subs).1[j]? = subs[j]? ∧
    (translate_batch backend bs k subs).2 = k + 1 := by
  rcases happlied with ⟨⟨m, seg⟩, hmem, hm1, hm2⟩
  have happ : (applyPairs (findPairs resp) subs false).2 = true :=
    applyPairs_applied (findPairs resp) subs false m seg hmem hm2 hm1
  have hget : (applyPairs (findPairs resp) subs false).1[j]? = subs[j]? :=
    applyPairs_getElem_not_mem (findPairs resp) subs false j hj
  rcases hpair : applyPairs (findPairs resp) subs false with ⟨batch2, flag⟩
  rw [hpair] at happ hget
  subst happ
  rw [translate_batch_single backend bs k subs h0 hlen,
    batchStep_applied backend k resp subs batch2 hresp hne hpair]
  exact ⟨hget, rfl⟩

theorem spec_C2_partial_batch_witness :
    (translate_batch partialBatchBackend 5 0
      [mkCue 1 "a", mkCue 2 "b", mkCue 3 "c"]).1[1]? = some (mkCue 2 "b") ∧
    (translate_batch partialBatchBackend 5 0
      [mkCue 1 "a", mkCue 2 "b", mkCue 3 "c"]).2 = 1 := by
  have h := spec_C2_partial_batch partialBatchBackend 5 0
    [mkCue 1 "a", mkCue 2 "b", mkCue 3 "c"] "[1] A\n[3] C".toList 1
    (by decide) (by decide) (by decide) (by decide)
    ⟨(1, "A".toList), by decide, by decide, by decide⟩
    (by decide)
  exact ⟨h.1.trans (by decide), h.2⟩

/-! ## Claim C9: timestamp separator normalization -/

theorem dotComma_of_isDig {c : Char} (h : isDig c = true) : dotComma c = c := by
  unfold dotComma
  rw [if_neg]
  intro he
  exact isDig_ne_dot h he

theorem parseTime_valid {s t r : List Char} (h : parseTime s = some (t, r)) :
    validTime (t.map dotComma) = true := by
  unfold parseTime at h
  split at h
  · rename_i a b c d e f g hh sg x y z rest
    split at h
    · rename_i hguard
      simp only [Bool.and_eq_true, decide_eq_true_eq, Bool.or_eq_true] at hguard
      obtain ⟨⟨⟨⟨⟨⟨⟨⟨⟨⟨⟨ha, hb⟩, hc⟩, hd⟩, he⟩, hf⟩, hg⟩, hh2⟩, hs⟩, hx⟩, hy⟩, hz⟩ := hguard
      injection h with h1
      injection h1 with h2 h3
      subst h2
      simp only [List.map_cons, List.map_nil]
      rw [dotComma_of_isDig ha, dotComma_of_isDig hb, dotComma_of_isDig hd,
        dotComma_of_isDig he, dotComma_of_isDig hg, dotComma_of_isDig hh2,
        dotComma_of_isDig hx, dotComma_of_isDig hy, dotComma_of_isDig hz]
      subst hc
      subst hf
      have hsg : dotComma sg = ',' := by
        rcases hs with rfl | rfl
        · rfl
        · rfl
      rw [hsg]
      have hcol : dotComma ':' = ':' := rfl
      rw [hcol]
      unfold validTime
      simp [ha, hb, hd, he, hg, hh2, hx, hy, hz]
    · exact absurd h (by simp)
  · exact absurd h (by simp)

theorem matchBlock_valid {s : List Char} {m : BlockMatch} (h : matchBlock s = some m) :
    validTime m.t1 = true ∧ validTime m.t2 = true := by
  simp only [matchBlock] at h
  split at h
  · exact absurd h (by simp)
  · split at h
    · exact absurd h (by simp)
    · split at h
      · exact absurd h (by simp)
      · rename_i t1 s4 hp1
        split at h
        · split at h
          · exact absurd h (by simp)
          · rename_i s6 t2 s8 hp2
            split at h
            · exact absurd h (by simp)
            · injection h with h1
              subst h1
              exact ⟨parseTime_valid hp1, parseTime_valid hp2⟩
        · exact absurd h (by simp)

theorem scanAux_valid :
    ∀ fuel b s c, c ∈ scanAux fuel b s →
      validTime c.start_time = true ∧ validTime c.end_time = true := by
  intro fuel
  induction fuel with
  | zero => intro b s c hc; simp [scanAux] at hc
  | succ f ih =>
    intro b s c hc
    cases s with
    | nil => simp [scanAux] at hc
    | cons x rest =>
      unfold scanAux at hc
      split at hc
      · split at hc
        · rename_i m hm
          by_cases ht : pstrip m.raw = []
          · simp only [ht, if_pos] at hc
            exact ih _ _ c hc
          · simp only [if_neg ht] at hc
            rcases List.mem_cons.mp hc with rfl | hc2
            · exact matchBlock_valid hm
            · exact ih _ _ c hc2
        · exact ih _ _ c hc
      · exact ih _ _ c hc

/-- C9: every cue stored by the Format Reader carries normalised
timestamps — `HH:MM:SS,mmm` with a comma separator, even when the input
used `.` — and the Format Writer re-emits exactly the stored
timestamps (hence with `,`) on the timing line. -/
theorem spec_C9_timestamp_normalization (readFile : Option (List Char))
    (c : SubtitleBlock) (h : c ∈ parse_srt readFile) :
    validTime c.start_time = true ∧ validTime c.end_time = true ∧
    cueBlock c = natDigits c.index ++ '\n' ::
      (c.start_time ++ ' ' :: '-' :: '-' :: '>' :: ' ' :: c.end_time) ++ '\n' ::
      writeBody c ++ ['\n', '\n'] := by
  cases readFile with
  | none => simp [parse_srt] at h
  | some content =>
    have hv := scanAux_valid _ _ _ c h
    exact ⟨hv.1, hv.2, rfl⟩

theorem spec_C9_timestamp_normalization_witness :
    ({ index := 1, start_time := "00:00:01,000".toList, end_time := "00:00:02,500".toList,
       text := "Hei".toList, translated_text := none } : SubtitleBlock) ∈
      parse_srt (some "1\n00:00:01.000 --> 00:00:02.500\nHei\n\n".toList) ∧
    validTime "00:00:01,000".toList = true := by
  refine ⟨by decide, ?_⟩
  exact (spec_C9_timestamp_normalization
    (some "1\n00:00:01.000 --> 00:00:02.500\nHei\n\n".toList)
    { index := 1, start_time := "00:00:01,000".toList, end_time := "00:00:02,500".toList,
      text := "Hei".toList, translated_text := none } (by decide)).1

/-! ## Claim C6: round trip.  Structural facts about `pstrip`,
suffixes and `validTime`. -/

theorem getLast?_append_right (u v : List Char) (hv : v ≠ []) :
    (u ++ v).getLast? = v.getLast? := by
  rw [List.getLast?_append]
  cases h : v.getLast? with
  | none => exact absurd (List.getLast?_eq_none_iff.mp h) hv
  | some c => rfl

theorem dropWhile_eq_self_of_head {p : Char → Bool} {l : List Char} {c : Char}
    (hhead : l.head? = some c) (hc : p c = false) : l.dropWhile p = l := by
  cases l with
  | nil => simp at hhead
  | cons x r =>
    simp only [List.head?_cons, Option.some.injEq] at hhead
    subst hhead
    exact List.dropWhile_cons_of_neg (by rw [hc]; simp)

theorem pstrip_getLast {b : List Char} (hb : pstrip b = b) (hne : b ≠ []) :
    ∃ c, b.getLast? = some c ∧ isWS c = false := by
  have h1 : b.getLast? = ((b.dropWhile isWS).reverse.dropWhile isWS).head? := by
    conv_lhs => rw [← hb]
    unfold pstrip
    rw [List.getLast?_reverse]
  cases hh : ((b.dropWhile isWS).reverse.dropWhile isWS).head? with
  | none =>
    exfalso
    have h2 : (b.dropWhile isWS).reverse.dropWhile isWS = [] := by
      cases hcase : (b.dropWhile isWS).reverse.dropWhile isWS with
      | nil => rfl
      | cons y ys => rw [hcase] at hh; simp at hh
    have h3 : pstrip b = [] := by unfold pstrip; rw [h2]; rfl
    rw [hb] at h3
    exact hne h3
  | some c =>
    exact ⟨c, h1.trans hh, dropWhile_head_false hh⟩

theorem pstrip_head {b : List Char} (hb : pstrip b = b) (hne : b ≠ []) :
    ∃ c, b.head? = some c ∧ isWS c = false := by
  have h1 : b.head? = ((b.dropWhile isWS).reverse.dropWhile isWS).getLast? := by
    conv_lhs => rw [← hb]
    unfold pstrip
    rw [List.head?_reverse]
  have h4 : (b.dropWhile isWS).reverse.dropWhile isWS ≠ [] := by
    intro h2
    have h3 : pstrip b = [] := by unfold pstrip; rw [h2]; rfl
    rw [hb] at h3
    exact hne h3
  rcases List.dropWhile_suffix (l := (b.dropWhile isWS).reverse) isWS with ⟨u, hu⟩
  have h5 : ((b.dropWhile isWS).reverse.dropWhile isWS).getLast? =
      (b.dropWhile isWS).reverse.getLast? := by
    conv_rhs => rw [← hu]
    exact (getLast?_append_right u _ h4).symm
  rw [List.getLast?_reverse] at h5
  cases hh : (b.dropWhile isWS).head? with
  | none =>
    exfalso
    have h2 : b.dropWhile isWS = [] := by
      cases hcase : b.dropWhile isWS with
      | nil => rfl
      | cons y ys => rw [hcase] at hh; simp at hh
    rw [h2] at h4
    exact h4 rfl
  | some c =>
    exact ⟨c, by rw [h1, h5, hh], dropWhile_head_false hh⟩

theorem pstrip_append_ws {b : List Char} (w : List Char) (hb : pstrip b = b)
    (hne : b ≠ []) (hw : ∀ c ∈ w, isWS c = true) : pstrip (b ++ w) = b := by
  rcases pstrip_head hb hne with ⟨ch, hch, hwch⟩
  rcases pstrip_getLast hb hne with ⟨cl, hcl, hwcl⟩
  unfold pstrip
  have h1 : (b ++ w).dropWhile isWS = b ++ w := by
    refine dropWhile_eq_self_of_head (c := ch) ?_ hwch
    cases b with
    | nil => exact absurd rfl hne
    | cons x r => simpa using hch
  rw [h1, List.reverse_append]
  rw [dropWhile_append_all _ (fun c hc => hw c (List.mem_reverse.mp hc))]
  have h2 : b.reverse.dropWhile isWS = b.reverse := by
    refine dropWhile_eq_self_of_head (c := cl) ?_ hwcl
    rw [List.head?_reverse]
    exact hcl
  rw [h2, List.reverse_reverse]

theorem suffix_getLast {v b : List Char} (hs : v <:+ b) (hv : v ≠ []) :
    v.getLast? = b.getLast? := by
  rcases hs with ⟨u, rfl⟩
  exact (getLast?_append_right u v hv).symm

/-! ### `validTime` consequences -/

theorem validTime_parseTime {t : List Char} (h : validTime t = true) :
    ∀ rest, parseTime (t ++ rest) = some (t, rest) := by
  intro rest
  unfold validTime at h
  split at h
  · rename_i a b c d e f g hh sg x y z
    simp only [Bool.and_eq_true, decide_eq_true_eq] at h
    obtain ⟨⟨⟨⟨⟨⟨⟨⟨⟨⟨⟨ha, hb⟩, hc⟩, hd⟩, he⟩, hf⟩, hg⟩, hh2⟩, hs⟩, hx⟩, hy⟩, hz⟩ := h
    subst hc
    subst hf
    subst hs
    simp only [List.cons_append, List.nil_append]
    simp [parseTime, ha, hb, hd, he, hg, hh2, hx, hy, hz]
  · exact absurd h (by simp)

theorem validTime_map_dotComma {t : List Char} (h : validTime t = true) :
    t.map dotComma = t := by
  unfold validTime at h
  split at h
  · rename_i a b c d e f g hh sg x y z
    simp only [Bool.and_eq_true, decide_eq_true_eq] at h
    obtain ⟨⟨⟨⟨⟨⟨⟨⟨⟨⟨⟨ha, hb⟩, hc⟩, hd⟩, he⟩, hf⟩, hg⟩, hh2⟩, hs⟩, hx⟩, hy⟩, hz⟩ := h
    subst hc
    subst hf
    subst hs
    simp only [List.map_cons, List.map_nil]
    have hcol : dotComma ':' = ':' := rfl
    have hcom : dotComma ',' = ',' := rfl
    rw [dotComma_of_isDig ha, dotComma_of_isDig hb, dotComma_of_isDig hd,
      dotComma_of_isDig he, dotComma_of_isDig hg, dotComma_of_isDig hh2,
      dotComma_of_isDig hx, dotComma_of_isDig hy, dotComma_of_isDig hz, hcol, hcom]
  · exact absurd h (by simp)

theorem validTime_head {t : List Char} (h : validTime t = true) :
    ∃ c r, t = c :: r ∧ isDig c = true := by
  unfold validTime at h
  split at h
  · rename_i a b c d e f g hh sg x y z
    simp only [Bool.and_eq_true, decide_eq_true_eq] at h
    exact ⟨a, _, rfl, h.1.1.1.1.1.1.1.1.1.1.1⟩
  · exact absurd h (by simp)

theorem validTime_no_ws {t : List Char} (h : validTime t = true) :
    ∀ c ∈ t, isWS c = false := by
  unfold validTime at h
  split at h
  · rename_i a b c d e f g hh sg x y z
    simp only [Bool.and_eq_true, decide_eq_true_eq] at h
    obtain ⟨⟨⟨⟨⟨⟨⟨⟨⟨⟨⟨ha, hb⟩, hc⟩, hd⟩, he⟩, hf⟩, hg⟩, hh2⟩, hs⟩, hx⟩, hy⟩, hz⟩ := h
    subst hc
    subst hf
    subst hs
    intro ch hch
    simp only [List.mem_cons, List.not_mem_nil, or_false] at hch
    rcases hch with rfl | rfl | rfl | rfl | rfl | rfl | rfl | rfl | rfl | rfl | rfl | rfl
    · exact isDig_isWS_false ha
    · exact isDig_isWS_false hb
    · decide
    · exact isDig_isWS_false hd
    · exact isDig_isWS_false he
    · decide
    · exact isDig_isWS_false hg
    · exact isDig_isWS_false hh2
    · decide
    · exact isDig_isWS_false hx
    · exact isDig_isWS_false hy
    · exact isDig_isWS_false hz
  · exact absurd h (by simp)

/-! ### Lookahead analysis for the text group -/

theorem mem_getLast? {l : List Char} {c : Char} (h : l.getLast? = some c) : c ∈ l := by
  have h2 : l.reverse.head? = some c := by rw [List.head?_reverse]; exact h
  cases hr : l.reverse with
  | nil => rw [hr] at h2; simp at h2
  | cons x xs =>
    rw [hr] at h2
    simp only [List.head?_cons, Option.some.injEq] at h2
    have hx : x ∈ l := List.mem_reverse.mp (by rw [hr]; simp)
    rwa [← h2]

theorem lookaheadOk_ne_nil (s : List Char) (hs : s ≠ []) :
    lookaheadOk s =
      (if (s.takeWhile (fun c => c = '\n')).length ≥ 2 then
        (if (s.drop (s.takeWhile (fun c => c = '\n')).length).takeWhile isDig = [] then false
         else (((s.drop (s.takeWhile (fun c => c = '\n')).length).drop
             ((s.drop (s.takeWhile (fun c => c = '\n')).length).takeWhile isDig).length).takeWhile
               isWS).contains '\n')
      else false) := by
  cases s with
  | nil => exact absurd rfl hs
  | cons x xs => rfl

theorem takeWhile_ne_self_of_getLast {p : Char → Bool} {v : List Char} {c : Char}
    (hcl : v.getLast? = some c) (hpc : p c = false) : v.takeWhile p ≠ v := by
  intro heq
  have := (List.takeWhile_eq_self_iff.mp heq) c (mem_getLast? hcl)
  rw [hpc] at this
  exact absurd this (by simp)

theorem drop_takeWhile_ne_nil {p : Char → Bool} {v : List Char}
    (h : v.takeWhile p ≠ v) : v.drop (v.takeWhile p).length ≠ [] := by
  intro he
  have h1 : v.length ≤ (v.takeWhile p).length := by
    have h2 := congrArg List.length he
    rw [List.length_drop] at h2
    simp at h2
    omega
  have h3 : (v.takeWhile p).length = v.length :=
    le_antisymm (List.takeWhile_prefix p).length_le h1
  exact h ((List.takeWhile_prefix p).eq_of_length h3)

theorem lookahead_true_sep (nd2 ρ : List Char) (hnd : nd2 ≠ [])
    (hdig : ∀ c ∈ nd2, isDig c = true) :
    lookaheadOk ('\n' :: '\n' :: (nd2 ++ '\n' :: ρ)) = true := by
  obtain ⟨d, nd0, rfl⟩ : ∃ d nd0, nd2 = d :: nd0 := by
    cases nd2 with
    | nil => exact absurd rfl hnd
    | cons d nd0 => exact ⟨d, nd0, rfl⟩
  have hdnl : (decide (d = '\n')) = false := by
    simp only [decide_eq_false_iff_not]
    exact isDig_ne_newline (hdig d (by simp))
  have ht : (('\n' :: '\n' :: ((d :: nd0) ++ '\n' :: ρ)).takeWhile (fun c => c = '\n')) =
      ['\n', '\n'] := by
    rw [List.takeWhile_cons_of_pos (by simp), List.takeWhile_cons_of_pos (by simp),
      List.cons_append, List.takeWhile_cons_of_neg (by rw [hdnl]; simp)]
  rw [lookaheadOk_ne_nil _ (by simp), ht]
  rw [if_pos (by simp)]
  have hdrop : ('\n' :: '\n' :: ((d :: nd0) ++ '\n' :: ρ)).drop 2 = (d :: nd0) ++ '\n' :: ρ := rfl
  simp only [List.length_cons, List.length_nil]
  rw [hdrop]
  have hds : ((d :: nd0) ++ '\n' :: ρ).takeWhile isDig = d :: nd0 := by
    rw [takeWhile_append_all _ hdig, List.takeWhile_cons_of_neg (by decide)]
    simp
  rw [hds, if_neg (by simp)]
  rw [show (d :: nd0).length = ((d :: nd0) : List Char).length from rfl, List.drop_left]
  rw [List.takeWhile_cons_of_pos (by decide)]
  simp

theorem badSuffix_eq (v : List Char) :
    badSuffix v = (decide ((v.takeWhile (fun c => c = '\n')).length ≥ 2) &&
      (!((v.drop (v.takeWhile (fun c => c = '\n')).length).takeWhile isDig).isEmpty &&
        ((((v.drop (v.takeWhile (fun c => c = '\n')).length).drop
            ((v.drop (v.takeWhile (fun c => c = '\n')).length).takeWhile isDig).length).takeWhile
              isWS).contains '\n' ||
          ((v.drop (v.takeWhile (fun c => c = '\n')).length).drop
            ((v.drop (v.takeWhile (fun c => c = '\n')).length).takeWhile isDig).length).takeWhile
              isWS ==
          ((v.drop (v.takeWhile (fun c => c = '\n')).length).drop
            ((v.drop (v.takeWhile (fun c => c = '\n')).length).takeWhile isDig).length)))) := rfl

/-- At a non-empty suffix `v` of a stripped cue body (non-whitespace
last character), the reader's text-group lookahead applied to `v`
followed by the written blank separator line behaves exactly as
`badSuffix v` — independently of what follows the separator. -/
theorem lookahead_eq_badSuffix (v ρ : List Char) {cl : Char}
    (hcl : v.getLast? = some cl) (hwcl : isWS cl = false) :
    lookaheadOk (v ++ '\n' :: '\n' :: ρ) = badSuffix v := by
  have hclnl : (decide (cl = '\n')) = false := by
    simp only [decide_eq_false_iff_not]
    intro he
    rw [he] at hwcl
    exact absurd hwcl (by decide)
  have htwnl : v.takeWhile (fun c => decide (c = '\n')) ≠ v :=
    takeWhile_ne_self_of_getLast hcl hclnl
  have happne : v ++ '\n' :: '\n' :: ρ ≠ [] := by simp
  rw [lookaheadOk_ne_nil _ happne, badSuffix_eq]
  rw [takeWhile_append_stop _ htwnl]
  rw [List.drop_append_of_le_length (List.takeWhile_prefix _).length_le]
  have hv2pre := drop_takeWhile_ne_nil htwnl
  have hsuf := List.drop_suffix ((v.takeWhile (fun c => decide (c = '\n'))).length) v
  generalize hV2 : v.drop (v.takeWhile (fun c => decide (c = '\n'))).length = v2
  rw [hV2] at hv2pre hsuf
  have hv2last : v2.getLast? = some cl := by
    rw [suffix_getLast hsuf hv2pre]
    exact hcl
  by_cases h2 : (v.takeWhile (fun c => decide (c = '\n'))).length ≥ 2
  · rw [if_pos h2, decide_eq_true h2, Bool.true_and]
    by_cases hall : v2.takeWhile isDig = v2
    · have hdigall : ∀ c ∈ v2, isDig c = true := List.takeWhile_eq_self_iff.mp hall
      have htds : (v2 ++ '\n' :: '\n' :: ρ).takeWhile isDig = v2 := by
        rw [takeWhile_append_all _ hdigall, List.takeWhile_cons_of_neg (by decide)]
        simp
      rw [htds, if_neg hv2pre, hall]
      rw [List.drop_left, List.drop_length]
      rw [List.takeWhile_cons_of_pos (by decide)]
      simp [hv2pre]
    · have htds : (v2 ++ '\n' :: '\n' :: ρ).takeWhile isDig = v2.takeWhile isDig :=
        takeWhile_append_stop _ hall
      rw [htds]
      by_cases hdse : v2.takeWhile isDig = []
      · rw [if_pos hdse, hdse]
        simp
      · rw [if_neg hdse]
        rw [List.drop_append_of_le_length (List.takeWhile_prefix _).length_le]
        have hv3pre := drop_takeWhile_ne_nil hall
        generalize hV3 : v2.drop (v2.takeWhile isDig).length = v3
        rw [hV3] at hv3pre
        by_cases hws : v3.takeWhile isWS = v3
        · have hwsall : ∀ c ∈ v3, isWS c = true := List.takeWhile_eq_self_iff.mp hws
          have htws : (v3 ++ '\n' :: '\n' :: ρ).takeWhile isWS =
              v3 ++ ('\n' :: '\n' :: ρ).takeWhile isWS := takeWhile_append_all _ hwsall
          rw [htws, hws]
          rw [List.takeWhile_cons_of_pos (by decide)]
          have hcont : (v3 ++ '\n' :: (('\n' :: ρ).takeWhile isWS)).contains '\n' = true :=
            List.elem_iff.mpr (by simp)
          rw [hcont]
          simp [hdse]
        · have htws : (v3 ++ '\n' :: '\n' :: ρ).takeWhile isWS = v3.takeWhile isWS :=
            takeWhile_append_stop _ hws
          rw [htws]
          have hbeq : (v3.takeWhile isWS == v3) = false := by
            simp only [beq_eq_false_iff_ne, ne_eq]
            exact hws
          rw [hbeq]
          simp [hdse]
  · rw [if_neg h2]
    have hd2 : decide ((v.takeWhile (fun c => decide (c = '\n'))).length ≥ 2) = false := by
      simp [h2]
    rw [hd2]
    simp

theorem safeBody_bad_false {b v : List Char} (hsafe : safeBody b = true)
    (hsuf : v <:+ b) : badSuffix v = false := by
  unfold safeBody at hsafe
  rw [List.all_eq_true] at hsafe
  have := hsafe v ((List.mem_tails v b).mpr hsuf)
  simpa using this

/-- Inside a written document, the lookahead can fire at no non-empty
suffix of a safe stripped body. -/
theorem lookahead_false_safe {b : List Char} (v ρ : List Char)
    (hb : pstrip b = b) (hbne : b ≠ []) (hsafe : safeBody b = true)
    (hv : v ≠ []) (hsuf : v <:+ b) :
    lookaheadOk (v ++ '\n' :: '\n' :: ρ) = false := by
  rcases pstrip_getLast hb hbne with ⟨cl, hcl, hwcl⟩
  have hvl : v.getLast? = some cl := by rw [suffix_getLast hsuf hv]; exact hcl
  rw [lookahead_eq_badSuffix v ρ hvl hwcl]
  exact safeBody_bad_false hsafe hsuf

/-- The lazy text group consumes exactly the body when the lookahead
fails inside the body and holds at its end. -/
theorem takeText_append (body κ : List Char)
    (hin : ∀ v, v ≠ [] → v <:+ body → lookaheadOk (v ++ κ) = false)
    (hκ : lookaheadOk κ = true) :
    takeText (body ++ κ) = (body, κ) := by
  induction body with
  | nil =>
    cases κ with
    | nil => rfl
    | cons c r =>
      show takeText (c :: r) = ([], c :: r)
      unfold takeText
      rw [if_pos hκ]
  | cons c b ih =>
    have hlf : lookaheadOk ((c :: b) ++ κ) = false :=
      hin (c :: b) (by simp) (List.suffix_refl _)
    show takeText (c :: (b ++ κ)) = (c :: b, κ)
    unfold takeText
    rw [List.cons_append] at hlf
    rw [if_neg (by rw [hlf]; simp)]
    have hrec := ih (fun v hv hs => hin v hv (hs.trans (List.suffix_cons c b)))
    rw [hrec]

/-- At the end of the document the lazy text group runs to the very
end (where `\Z` holds) when the lookahead fails at every non-empty
suffix. -/
theorem takeText_all (s : List Char)
    (hno : ∀ v, v ≠ [] → v <:+ s → lookaheadOk v = false) :
    takeText s = (s, []) := by
  induction s with
  | nil => rfl
  | cons c r ih =>
    unfold takeText
    rw [if_neg (by rw [hno (c :: r) (by simp) (List.suffix_refl _)]; simp)]
    rw [ih (fun v hv hs => hno v hv (hs.trans (List.suffix_cons c r)))]

theorem suffix_append_cases {v' : List Char} (b w : List Char) (h : v' <:+ b ++ w) :
    v' <:+ w ∨ ∃ v, v <:+ b ∧ v' = v ++ w := by
  induction b with
  | nil => exact Or.inl (by simpa using h)
  | cons x b2 ih =>
    rw [List.cons_append, List.suffix_cons_iff] at h
    rcases h with rfl | h2
    · exact Or.inr ⟨x :: b2, List.suffix_refl _, by simp⟩
    · rcases ih h2 with h3 | ⟨v, hv, rfl⟩
      · exact Or.inl h3
      · exact Or.inr ⟨v, hv.trans (List.suffix_cons x b2), rfl⟩

theorem takeText_mid (body ρ : List Char) (hb : pstrip body = body) (hbne : body ≠ [])
    (hsafe : safeBody body = true) (hlook : lookaheadOk ('\n' :: '\n' :: ρ) = true) :
    takeText (body ++ '\n' :: '\n' :: ρ) = (body, '\n' :: '\n' :: ρ) :=
  takeText_append body _ (fun v hv hs => lookahead_false_safe v ρ hb hbne hsafe hv hs) hlook

theorem takeText_last (body : List Char) (hb : pstrip body = body) (hbne : body ≠ [])
    (hsafe : safeBody body = true) :
    takeText (body ++ ['\n', '\n']) = (body ++ ['\n', '\n'], []) := by
  refine takeText_all _ ?_
  intro v2 hne hsuf
  rcases suffix_append_cases body ['\n', '\n'] hsuf with h | ⟨v, hv, rfl⟩
  · have hcases : v2 = ['\n'] ∨ v2 = ['\n', '\n'] := by
      rcases h with ⟨u, hu⟩
      cases u with
      | nil => simp at hu; exact Or.inr hu
      | cons a u2 =>
        cases u2 with
        | nil =>
          simp only [List.cons_append, List.nil_append, List.cons.injEq] at hu
          exact Or.inl hu.2
        | cons a2 u3 =>
          have hlen := congrArg List.length hu
          simp only [List.length_append, List.length_cons, List.length_nil] at hlen
          have hv2 : v2 = [] := List.length_eq_zero.mp (by omega)
          exact absurd hv2 hne
    rcases hcases with rfl | rfl
    · decide
    · decide
  · by_cases hveq : v = []
    · subst hveq
      simp only [List.nil_append]
      decide
    · exact lookahead_false_safe v [] hb hbne hsafe hveq hv

theorem dropLastNL_single {X : List Char} {c1 : Char} (hx : X.head? = some c1)
    (hc : isWS c1 = false) : dropLastNL ('\n' :: X) = some X := by
  have er : ('\n' :: X).takeWhile isWS = ['\n'] := by
    rw [List.takeWhile_cons_of_pos (by decide)]
    cases X with
    | nil => simp at hx
    | cons a r =>
      simp only [List.head?_cons, Option.some.injEq] at hx
      subst hx
      rw [List.takeWhile_cons_of_neg (by rw [hc]; simp)]
  simp only [dropLastNL]
  rw [er, if_pos (by decide)]
  rw [show ((['\n'] : List Char).reverse.takeWhile (fun c => c ≠ '\n')).reverse =
    ([] : List Char) from by decide]
  simp

theorem matchBlock_canonical (wsp nd t1 t2 tail raw rem : List Char)
    (hw : ∀ c ∈ wsp, isWS c = true)
    (hnd : nd ≠ []) (hdig : ∀ c ∈ nd, isDig c = true)
    (h1 : validTime t1 = true) (h2 : validTime t2 = true)
    (htt : takeText tail = (raw, rem)) :
    matchBlock (wsp ++ (nd ++ ('\n' :: (t1 ++
        (' ' :: '-' :: '-' :: '>' :: ' ' :: (t2 ++ '\n' :: tail)))))) =
      some { idx := digitsToNat nd, t1 := t1, t2 := t2, raw := raw,
             nl := (match raw.getLast? with
                    | some ch => ch = '\n'
                    | none => true),
             rem := rem } := by
  obtain ⟨d, nd0, rfl⟩ : ∃ d nd0, nd = d :: nd0 := by
    cases nd with
    | nil => exact absurd rfl hnd
    | cons d nd0 => exact ⟨d, nd0, rfl⟩
  obtain ⟨c1, t1r, ht1e, hc1⟩ := validTime_head h1
  obtain ⟨c2, t2r, ht2e, hc2⟩ := validTime_head h2
  have e1 : (wsp ++ ((d :: nd0) ++ ('\n' :: (t1 ++
      (' ' :: '-' :: '-' :: '>' :: ' ' :: (t2 ++ '\n' :: tail)))))).dropWhile isWS =
      (d :: nd0) ++ ('\n' :: (t1 ++
      (' ' :: '-' :: '-' :: '>' :: ' ' :: (t2 ++ '\n' :: tail)))) := by
    rw [dropWhile_append_all _ hw, List.cons_append,
      List.dropWhile_cons_of_neg (by rw [isDig_isWS_false (hdig d (by simp))]; simp),
      ← List.cons_append]
  have e2 : ((d :: nd0) ++ ('\n' :: (t1 ++
      (' ' :: '-' :: '-' :: '>' :: ' ' :: (t2 ++ '\n' :: tail))))).takeWhile isDig =
      d :: nd0 := by
    rw [takeWhile_append_all _ hdig, List.takeWhile_cons_of_neg (by decide)]
    simp
  have e4 : dropLastNL ('\n' :: (t1 ++
      (' ' :: '-' :: '-' :: '>' :: ' ' :: (t2 ++ '\n' :: tail)))) =
      some (t1 ++ (' ' :: '-' :: '-' :: '>' :: ' ' :: (t2 ++ '\n' :: tail))) := by
    refine @dropLastNL_single _ c1 ?_ (isDig_isWS_false hc1)
    rw [ht1e]
    simp
  have e5 : parseTime (t1 ++ (' ' :: '-' :: '-' :: '>' :: ' ' :: (t2 ++ '\n' :: tail))) =
      some (t1, ' ' :: '-' :: '-' :: '>' :: ' ' :: (t2 ++ '\n' :: tail)) :=
    validTime_parseTime h1 _
  have e6 : (' ' :: '-' :: '-' :: '>' :: ' ' :: (t2 ++ '\n' :: tail)).dropWhile isWS =
      '-' :: '-' :: '>' :: (' ' :: (t2 ++ '\n' :: tail)) := by
    rw [List.dropWhile_cons_of_pos (by decide), List.dropWhile_cons_of_neg (by decide)]
  have e7 : (' ' :: (t2 ++ '\n' :: tail)).dropWhile isWS = t2 ++ '\n' :: tail := by
    rw [List.dropWhile_cons_of_pos (by decide), ht2e, List.cons_append,
      List.dropWhile_cons_of_neg (by rw [isDig_isWS_false hc2]; simp), ← List.cons_append]
  have e8 : parseTime (t2 ++ '\n' :: tail) = some (t2, '\n' :: tail) :=
    validTime_parseTime h2 _
  simp only [matchBlock]
  rw [e1, e2, if_neg (by simp)]
  rw [show ((d :: nd0) ++ ('\n' :: (t1 ++
      (' ' :: '-' :: '-' :: '>' :: ' ' :: (t2 ++ '\n' :: tail))))).drop
      (d :: nd0 : List Char).length =
    '\n' :: (t1 ++ (' ' :: '-' :: '-' :: '>' :: ' ' :: (t2 ++ '\n' :: tail)))
    from List.drop_left _ _]
  have e9 : dropFirstNL ('\n' :: tail) = some tail := rfl
  simp only [e4, e5, e6, e7, e8, e9, htt, validTime_map_dotComma h1,
    validTime_map_dotComma h2]

/-! ### Scanner-level lemmas -/

theorem scanAux_nil : ∀ (fuel : Nat) (b : Bool), scanAux fuel b [] = [] := by
  intro fuel b
  cases fuel with
  | zero => rfl
  | succ f => rfl

theorem scanAux_match_fields (fuel : Nat) (x : Char) (xs : List Char)
    (idx : Nat) (t1 t2 raw : List Char) (nl : Bool) (rem : List Char)
    (hm : matchBlock (x :: xs) = some ⟨idx, t1, t2, raw, nl, rem⟩) :
    scanAux (fuel + 1) true (x :: xs) =
      if pstrip raw = [] then scanAux fuel nl rem
      else { index := idx, start_time := t1, end_time := t2,
             text := pstrip raw, translated_text := none } :: scanAux fuel nl rem := by
  show (match matchBlock (x :: xs) with
    | some m =>
      if pstrip m.raw = [] then scanAux fuel m.nl m.rem
      else { index := m.idx, start_time := m.t1, end_time := m.t2,
             text := pstrip m.raw, translated_text := none } :: scanAux fuel m.nl m.rem
    | none => scanAux fuel (x = '\n') xs) = _
  rw [hm]

theorem scanAux_none (fuel : Nat) (x : Char) (xs : List Char)
    (hm : matchBlock (x :: xs) = none) :
    scanAux (fuel + 1) true (x :: xs) = scanAux fuel (x = '\n') xs := by
  show (match matchBlock (x :: xs) with
    | some m =>
      if pstrip m.raw = [] then scanAux fuel m.nl m.rem
      else { index := m.idx, start_time := m.t1, end_time := m.t2,
             text := pstrip m.raw, translated_text := none } :: scanAux fuel m.nl m.rem
    | none => scanAux fuel (x = '\n') xs) = _
  rw [hm]

theorem scanAux_skip (fuel : Nat) (x : Char) (xs : List Char) :
    scanAux (fuel + 1) false (x :: xs) = scanAux fuel (x = '\n') xs := rfl

theorem cueBlock_append (c : SubtitleBlock) (rest : List Char) :
    cueBlock c ++ rest = natDigits c.index ++ ('\n' :: (c.start_time ++
      (' ' :: '-' :: '-' :: '>' :: ' ' :: (c.end_time ++ '\n' ::
        (writeBody c ++ '\n' :: '\n' :: rest))))) := by
  simp [cueBlock]

theorem cueBlock_length_ge (c : SubtitleBlock) : 4 ≤ (cueBlock c).length := by
  simp only [cueBlock, List.length_append, List.length_cons]
  omega

/-- The scanner recovers exactly the written cues from a serialized
document, entered either at the document start or just after the first
newline of a blank separator line. -/
theorem scan_canonical : ∀ (l : List SubtitleBlock), (∀ c ∈ l, GoodCue c) →
    ∀ (wsp : List Char), (wsp = [] ∨ wsp = ['\n']) →
    ∀ fuel, (wsp ++ concatBlocks l).length + 1 ≤ fuel →
    scanAux fuel true (wsp ++ concatBlocks l) = l := by
  intro l
  induction l with
  | nil =>
    intro hG wsp hwsp fuel hf
    rcases hwsp with rfl | rfl
    · simp only [concatBlocks, List.append_nil]
      exact scanAux_nil fuel true
    · simp only [concatBlocks, List.append_nil]
      obtain ⟨f, rfl⟩ : ∃ f, fuel = f + 1 := ⟨fuel - 1, by omega⟩
      rw [scanAux_none f '\n' [] rfl]
      exact scanAux_nil f _
  | cons c l2 ih =>
    intro hG wsp hwsp fuel hf
    have hGc : GoodCue c := hG c (by simp)
    obtain ⟨htr, hne, hstrip, hcr, hsafe, hvt1, hvt2⟩ := hGc
    have hw : ∀ ch ∈ wsp, isWS ch = true := by
      rcases hwsp with rfl | rfl
      · simp
      · intro ch hch
        simp only [List.mem_singleton] at hch
        subst hch
        decide
    have hwb : writeBody c = c.text := by
      unfold writeBody orText
      rw [htr, hstrip]
    have hlenge := cueBlock_length_ge c
    obtain ⟨f, rfl⟩ : ∃ f, fuel = f + 1 := ⟨fuel - 1, by omega⟩
    have hflen : (wsp ++ (cueBlock c ++ concatBlocks l2)).length ≤ f := by
      have h0 := hf
      rw [show concatBlocks (c :: l2) = cueBlock c ++ concatBlocks l2 from rfl] at h0
      omega
    simp only [List.length_append] at hflen
    -- the head/tail decomposition of the document
    obtain ⟨x, xs, hxs⟩ : ∃ x xs,
        wsp ++ (cueBlock c ++ concatBlocks l2) = x :: xs := by
      cases hcase : wsp ++ (cueBlock c ++ concatBlocks l2) with
      | nil =>
        have hl := congrArg List.length hcase
        simp only [List.length_append, List.length_nil] at hl
        omega
      | cons x xs => exact ⟨x, xs, rfl⟩
    -- the text-group lookahead fact at the end of this block's body
    rcases pstrip_getLast hstrip hne with ⟨cl, hcl, hwcl⟩
    have hnl : (match c.text.getLast? with
        | some ch => (decide (ch = '\n'))
        | none => true) = false := by
      rw [hcl]
      simp only [decide_eq_false_iff_not]
      intro he
      rw [he] at hwcl
      exact absurd hwcl (by decide)
    rw [show concatBlocks (c :: l2) = cueBlock c ++ concatBlocks l2 from rfl]
    cases l2 with
    | nil =>
      -- final block: the text group runs to the end of the document
      have htt : takeText (writeBody c ++ '\n' :: '\n' :: concatBlocks []) =
          (c.text ++ ['\n', '\n'], []) := by
        rw [hwb]
        show takeText (c.text ++ ['\n', '\n']) = _
        exact takeText_last c.text hstrip hne hsafe
      have hmb : matchBlock (wsp ++ (cueBlock c ++ concatBlocks [])) =
          some ⟨digitsToNat (natDigits c.index), c.start_time, c.end_time,
            c.text ++ ['\n', '\n'],
            (match (c.text ++ ['\n', '\n']).getLast? with
             | some ch => (decide (ch = '\n'))
             | none => true), []⟩ := by
        rw [cueBlock_append]
        exact matchBlock_canonical wsp (natDigits c.index) c.start_time c.end_time
          (writeBody c ++ '\n' :: '\n' :: concatBlocks []) (c.text ++ ['\n', '\n']) []
          hw (natDigits_ne_nil _) (natDigits_all_digits _) hvt1 hvt2 htt
      rw [hxs] at hmb ⊢
      rw [scanAux_match_fields f x xs _ _ _ _ _ _ hmb]
      have hps : pstrip (c.text ++ ['\n', '\n']) = c.text :=
        pstrip_append_ws _ hstrip hne (by decide)
      rw [hps, if_neg hne, digitsToNat_natDigits, scanAux_nil]
      rcases c with ⟨ci, cst, cet, ctx, ctr⟩
      simp only at htr
      subst htr
      rfl
    | cons c2 l3 =>
      -- a following block exists: the lookahead fires exactly at the
      -- end of this block's body
      have hlook : lookaheadOk ('\n' :: '\n' :: concatBlocks (c2 :: l3)) = true := by
        rw [show concatBlocks (c2 :: l3) = cueBlock c2 ++ concatBlocks l3 from rfl,
          cueBlock_append]
        exact lookahead_true_sep _ _ (natDigits_ne_nil _) (natDigits_all_digits _)
      have htt : takeText (writeBody c ++ '\n' :: '\n' :: concatBlocks (c2 :: l3)) =
          (c.text, '\n' :: '\n' :: concatBlocks (c2 :: l3)) := by
        rw [hwb]
        exact takeText_mid c.text _ hstrip hne hsafe hlook
      have hmb : matchBlock (wsp ++ (cueBlock c ++ concatBlocks (c2 :: l3))) =
          some ⟨digitsToNat (natDigits c.index), c.start_time, c.end_time, c.text,
            (match c.text.getLast? with
             | some ch => (decide (ch = '\n'))
             | none => true), '\n' :: '\n' :: concatBlocks (c2 :: l3)⟩ := by
        rw [cueBlock_append]
        exact matchBlock_canonical wsp (natDigits c.index) c.start_time c.end_time
          (writeBody c ++ '\n' :: '\n' :: concatBlocks (c2 :: l3)) c.text
          ('\n' :: '\n' :: concatBlocks (c2 :: l3))
          hw (natDigits_ne_nil _) (natDigits_all_digits _) hvt1 hvt2 htt
      rw [hnl] at hmb
      rw [hxs] at hmb ⊢
      rw [scanAux_match_fields f x xs _ _ _ _ _ _ hmb]
      rw [hstrip, if_neg hne, digitsToNat_natDigits]
      -- fuel bookkeeping for the two skipped separator characters
      have hxl := congrArg List.length hxs
      simp only [List.length_append, List.length_cons] at hxl
      obtain ⟨f2, rfl⟩ : ∃ f2, f = f2 + 1 := ⟨f - 1, by omega⟩
      rw [scanAux_skip f2 '\n' ('\n' :: concatBlocks (c2 :: l3))]
      rw [show (('\n' : Char) = '\n' : Bool) = true from by decide]
      have hrec := ih (fun d hd => hG d (by simp [hd])) ['\n'] (Or.inr rfl) f2 (by
        simp only [List.length_cons, List.length_append, List.length_nil]
        omega)
      rw [show ('\n' :: concatBlocks (c2 :: l3)) =
        ['\n'] ++ concatBlocks (c2 :: l3) from rfl]
      rw [hrec]
      rcases c with ⟨ci, cst, cet, ctx, ctr⟩
      simp only at htr
      subst htr
      rfl

/-! ### Final assembly of the round trip -/

theorem normalizeNewlines_id : ∀ (s : List Char), '\r' ∉ s → normalizeNewlines s = s := by
  intro s
  induction s with
  | nil => intro h; rfl
  | cons c r ih =>
    intro h
    have hc : c ≠ '\r' := fun he => h (by rw [← he]; exact List.mem_cons_self c r)
    have hr : '\r' ∉ r := fun hm => h (List.mem_cons_of_mem c hm)
    have he : normalizeNewlines (c :: r) = c :: normalizeNewlines r := by
      conv_lhs => unfold normalizeNewlines
      split
      · rename_i heq
        simp at heq
      · rename_i heq
        rw [List.cons.injEq] at heq
        exact absurd heq.1 hc
      · rename_i heq
        rw [List.cons.injEq] at heq
        exact absurd heq.1 hc
      · rename_i heq
        rw [List.cons.injEq] at heq
        rw [heq.1, heq.2]
    rw [he, ih hr]

theorem validTime_ne_cr {t : List Char} (h : validTime t = true) : '\r' ∉ t := by
  intro hm
  have h2 := validTime_no_ws h '\r' hm
  exact absurd h2 (by decide)

theorem natDigits_ne_cr (n : Nat) : '\r' ∉ natDigits n := by
  intro hm
  exact isDig_ne_cr (natDigits_all_digits n '\r' hm) rfl

theorem cueBlock_ne_cr (c : SubtitleBlock) (hG : GoodCue c) : '\r' ∉ cueBlock c := by
  obtain ⟨htr, hne, hstrip, hcr, hsafe, hvt1, hvt2⟩ := hG
  have hwb : writeBody c = c.text := by
    unfold writeBody orText
    rw [htr, hstrip]
  intro hm
  unfold cueBlock at hm
  rcases List.mem_append.mp hm with h | h
  · rcases List.mem_append.mp h with h | h
    · rcases List.mem_append.mp h with h | h
      · exact natDigits_ne_cr _ h
      · rcases List.mem_cons.mp h with h | h
        · exact absurd h (by decide)
        · rcases List.mem_append.mp h with h | h
          · exact validTime_ne_cr hvt1 h
          · rcases List.mem_cons.mp h with h | h
            · exact absurd h (by decide)
            · rcases List.mem_cons.mp h with h | h
              · exact absurd h (by decide)
              · rcases List.mem_cons.mp h with h | h
                · exact absurd h (by decide)
                · rcases List.mem_cons.mp h with h | h
                  · exact absurd h (by decide)
                  · rcases List.mem_cons.mp h with h | h
                    · exact absurd h (by decide)
                    · exact validTime_ne_cr hvt2 h
    · rcases List.mem_cons.mp h with h | h
      · exact absurd h (by decide)
      · rw [hwb] at h
        exact hcr h
  · exact absurd h (by decide)

theorem concatBlocks_ne_cr (l : List SubtitleBlock) (hG : ∀ c ∈ l, GoodCue c) :
    '\r' ∉ concatBlocks l := by
  induction l with
  | nil => simp [concatBlocks]
  | cons c cs ih =>
    intro hm
    rcases List.mem_append.mp hm with h | h
    · exact cueBlock_ne_cr c (hG c (by simp)) h
    · exact ih (fun d hd => hG d (by simp [hd])) h

/-- C6 counterexample: the Format Reader can produce a cue (the last
block of a document ending in a blank line followed by a digit line at
end of file) whose write/reparse round trip truncates the text:
reparsing the Writer's output does not reproduce the same cues. -/
theorem spec_C6_counterexample :
    (parse_srt (some roundTripDoc)).map (fun c => c.text) = ["A\n\n2".toList] ∧
    (parse_srt (some (write_srt_content (parse_srt (some roundTripDoc))))).map
      (fun c => c.text) = ["A".toList] ∧
    parse_srt (some (write_srt_content (parse_srt (some roundTripDoc)))) ≠
      parse_srt (some roundTripDoc) := by decide

/-- C6 amended: for every cue sequence of reader-shaped cues — no
translation set, non-empty stripped text without carriage returns,
normalised timestamps — whose texts additionally contain no blank line
followed by a digit run that could fake a block boundary
(`safeBody`), parsing the Format Writer's serialized output with the
Format Reader reproduces exactly the same cues (in the writer's sorted
order, `translated_text` unset, text equal to the written body). -/
theorem spec_C6_roundtrip (subs : List SubtitleBlock) (h : ∀ c ∈ subs, GoodCue c) :
    parse_srt (some (write_srt_content subs)) = sortByIndex subs := by
  have hsorted : ∀ c ∈ sortByIndex subs, GoodCue c := fun c hc =>
    h c ((sortByIndex_perm subs).mem_iff.mp hc)
  have hcr : '\r' ∉ write_srt_content subs :=
    concatBlocks_ne_cr (sortByIndex subs) hsorted
  show parseContent (normalizeNewlines (write_srt_content subs)) = _
  rw [normalizeNewlines_id _ hcr]
  unfold parseContent write_srt_content
  have h2 := scan_canonical (sortByIndex subs) hsorted [] (Or.inl rfl)
    ((concatBlocks (sortByIndex subs)).length + 1) (by simp)
  simpa using h2

theorem spec_C6_roundtrip_witness :
    (∀ c ∈ [mkCue 2 "Takk", mkCue 1 "Hei"], GoodCue c) ∧
    parse_srt (some (write_srt_content [mkCue 2 "Takk", mkCue 1 "Hei"])) =
      [mkCue 1 "Hei", mkCue 2 "Takk"] := by
  refine ⟨by decide, ?_⟩
  have h := spec_C6_roundtrip [mkCue 2 "Takk", mkCue 1 "Hei"] (by decide)
  exact h.trans (by decide)
